import Mathlib

/-!
Verification development for the SCRAM indexed fault-tree engine
(`src/indexed_fault_tree.cc`).  The engine rewrites an integer-indexed
Boolean graph: gates are keyed by positive integers, a signed child
literal `c` references entity `|c|`, negated when `c < 0`.  Primary
events (basic and house events) have magnitudes at most `gate_index_`;
larger magnitudes reference gates.

The gate record operations (`AddChild`, `SwapChild`, `MergeGate`,
`Nullify`, `MakeUnity`, `InvertChildren`, the DFS visit bookkeeping)
live in `indexed_gate.h/cc`, which is not part of the sources at hand;
they are modelled from the specification's data model (section 3: an
ordered set of signed children, duplicates forbidden, a literal and its
negation may not coexist, a constant gate has no children) and are
marked `Modelled from the spec:` below.  Everything else is translated
directly from `indexed_fault_tree.cc`.

`std::set<int>` iterates in ascending order, so child sets are sorted
lists of integers.  `boost::unordered_map` iteration order is
unspecified; the model fixes ascending key order (the properties proved
below do not depend on that choice).  Recursive graph traversals carry
explicit fuel; every recursive call decreases it, and callers supply
fuel large enough for the graphs at hand.
-/

namespace Scram

/-- Gate kinds of the indexed fault tree (`GateType` in the source). -/
inductive GateType where
  | andG | orG | atleastG | xorG | notG | nandG | norG | nullG
deriving DecidableEq, Repr

/-- Gate state (`State` in the source): `normal`, NULL-constant (the gate
is constant false), or UNITY (constant true). -/
inductive GState where
  | normal | nullSt | unitySt
deriving DecidableEq, Repr

/-- A gate record (`IndexedGate`): own index, kind, vote number (used only
by ATLEAST), the ordered set of signed children, the constant state, the
parent set collected for normalization, and the DFS visit times
(enter, exit, last revisit; 0 = unset). -/
structure IndexedGate where
  index : Nat
  gtype : GateType
  voteNumber : Nat
  children : List Int
  gstate : GState
  parents : List Nat
  visits : Nat × Nat × Nat
deriving DecidableEq, Repr

/-- Insertion into an ascending sorted list of integers, ignoring
duplicates: the behaviour of `std::set<int>::insert`. -/
def insertSorted (x : Int) : List Int → List Int
  | [] => [x]
  | y :: ys => if x < y then x :: y :: ys else if x = y then y :: ys else y :: insertSorted x ys

/-- Insertion into an ascending sorted list of naturals, ignoring
duplicates (`std::set<int>` of gate indices). -/
def insertSortedNat (x : Nat) : List Nat → List Nat
  | [] => [x]
  | y :: ys => if x < y then x :: y :: ys else if x = y then y :: ys else y :: insertSortedNat x ys

/-- Modelled from the spec: `IndexedGate::AddChild` (from the missing
`indexed_gate` sources).  A duplicate child is ignored; adding the
negation of an existing child makes the whole gate constant — UNITY for
an OR gate, NULL for others — with its children cleared, and reports
failure. -/
def IndexedGate.addChild (g : IndexedGate) (c : Int) : IndexedGate × Bool :=
  if g.children.contains (-c) then
    ({ g with gstate := if g.gtype = GateType.orG then GState.unitySt else GState.nullSt,
              children := [] }, false)
  else
    ({ g with children := insertSorted c g.children }, true)

/-- Adds a list of children in order through `addChild`, stopping at the
first failure (as the loop in `IndexedGate::MergeGate` does). -/
def IndexedGate.addChildren (g : IndexedGate) : List Int → IndexedGate × Bool
  | [] => (g, true)
  | c :: rest =>
    let p := g.addChild c
    if p.2 then p.1.addChildren rest else (p.1, false)

/-- Modelled from the spec: `IndexedGate::InitiateWithChild` — plain set
insertion used during construction, without the complement check. -/
def IndexedGate.initiateWithChild (g : IndexedGate) (c : Int) : IndexedGate :=
  { g with children := insertSorted c g.children }

/-- Modelled from the spec: `IndexedGate::EraseChild`. -/
def IndexedGate.eraseChild (g : IndexedGate) (c : Int) : IndexedGate :=
  { g with children := g.children.erase c }

/-- Modelled from the spec: `IndexedGate::EraseAllChildren`. -/
def IndexedGate.eraseAllChildren (g : IndexedGate) : IndexedGate :=
  { g with children := [] }

/-- Modelled from the spec: `IndexedGate::Nullify` — the gate becomes the
NULL (false) constant; a constant gate has no children. -/
def IndexedGate.nullify (g : IndexedGate) : IndexedGate :=
  { g with gstate := GState.nullSt, children := [] }

/-- Modelled from the spec: `IndexedGate::MakeUnity` — the gate becomes
the UNITY (true) constant; a constant gate has no children. -/
def IndexedGate.makeUnity (g : IndexedGate) : IndexedGate :=
  { g with gstate := GState.unitySt, children := [] }

/-- Modelled from the spec: `IndexedGate::SwapChild` — erase the existing
child and add the new one (which may collapse the gate to a constant). -/
def IndexedGate.swapChild (g : IndexedGate) (oldc newc : Int) : IndexedGate × Bool :=
  IndexedGate.addChild { g with children := g.children.erase oldc } newc

/-- Modelled from the spec: `IndexedGate::InvertChildren` — negate every
child literal (the set re-sorts itself). -/
def IndexedGate.invertChildren (g : IndexedGate) : IndexedGate :=
  { g with children := g.children.foldl (fun acc c => insertSorted (-c) acc) [] }

/-- Modelled from the spec: `IndexedGate::MergeGate` — erase the child
gate's index from this gate and absorb the child's children, failing if
a complement collision turns this gate constant. -/
def IndexedGate.mergeGate (g : IndexedGate) (child : IndexedGate) : IndexedGate × Bool :=
  IndexedGate.addChildren { g with children := g.children.erase (Int.ofNat child.index) }
    child.children

/-- Modelled from the spec: `IndexedGate::AddParent`. -/
def IndexedGate.addParent (g : IndexedGate) (p : Nat) : IndexedGate :=
  { g with parents := insertSortedNat p g.parents }

/-- Modelled from the spec: `IndexedGate::Visit` — record the visit time
in the first free slot (enter, then exit, then the revisit slot, which
is overwritten on later visits); report whether the gate had already
been entered and exited. -/
def IndexedGate.visit (g : IndexedGate) (time : Nat) : IndexedGate × Bool :=
  if g.visits.1 = 0 then
    ({ g with visits := (time, g.visits.2.1, g.visits.2.2) }, g.visits.2.2 ≠ 0)
  else if g.visits.2.1 = 0 then
    ({ g with visits := (g.visits.1, time, g.visits.2.2) }, g.visits.2.2 ≠ 0)
  else
    ({ g with visits := (g.visits.1, g.visits.2.1, time) }, true)

/-- Modelled from the spec: `IndexedGate::EnterTime`. -/
def IndexedGate.enterTime (g : IndexedGate) : Nat := g.visits.1

/-- Modelled from the spec: `IndexedGate::ExitTime`. -/
def IndexedGate.exitTime (g : IndexedGate) : Nat := g.visits.2.1

/-- Modelled from the spec: `IndexedGate::LastVisit` — the revisit time
if any, otherwise the exit time, otherwise the enter time. -/
def IndexedGate.lastVisit (g : IndexedGate) : Nat :=
  if g.visits.2.2 ≠ 0 then g.visits.2.2
  else if g.visits.2.1 ≠ 0 then g.visits.2.1 else g.visits.1

/-- Modelled from the spec: `IndexedGate::Revisited`. -/
def IndexedGate.revisited (g : IndexedGate) : Bool := g.visits.2.2 ≠ 0

/-- The indexed fault tree (`IndexedFaultTree`): the gate map (an
association list in ascending key order), the index of the top event,
the primary/gate index threshold `gate_index_` (primaries have magnitude
at most this), the fresh-index counter, the top-event sign, and the set
of detected modules. -/
structure IFT where
  gates : List (Nat × IndexedGate)
  topEventIndex : Nat
  gateIndex : Nat
  newGateIndex : Nat
  topEventSign : Int
  modules : List Nat
deriving DecidableEq, Repr

/-- Insert or replace a keyed gate in an ascending association list. -/
def insertGateList (i : Nat) (g : IndexedGate) : List (Nat × IndexedGate) → List (Nat × IndexedGate)
  | [] => [(i, g)]
  | (j, h) :: rest =>
    if i < j then (i, g) :: (j, h) :: rest
    else if i = j then (i, g) :: rest
    else (j, h) :: insertGateList i g rest

/-- Lookup of a gate by index (`indexed_gates_.find`). -/
def IFT.find? (t : IFT) (i : Nat) : Option IndexedGate :=
  (t.gates.find? (fun p => p.1 = i)).map Prod.snd

/-- Store a gate under its own index (mutation through the shared gate
pointer in the source). -/
def IFT.setGate (t : IFT) (g : IndexedGate) : IFT :=
  { t with gates := insertGateList g.index g t.gates }

/-- Remove a gate from the map (`indexed_gates_.erase`). -/
def IFT.eraseGate (t : IFT) (i : Nat) : IFT :=
  { t with gates := t.gates.filter (fun p => p.1 ≠ i) }

/-- Boolean value of a gate under an assignment of the primary events.
The source has no evaluator; this is the standard meaning of the graph
(glossary and section 3 of the specification): a signed literal of
magnitude at most `gateIndex` reads the assignment, a larger magnitude
evaluates the referenced gate, negative sign complements; a constant
gate yields its constant; each gate kind is its Boolean connective.
Fuel bounds the recursion depth; `none` means a dangling reference,
an arity violation, or exhausted fuel. -/
def IFT.evalGate (t : IFT) (env : Nat → Bool) : Nat → Nat → Option Bool
  | 0, _ => none
  | fuel + 1, i =>
    match t.find? i with
    | none => none
    | some g =>
      match g.gstate with
      | GState.nullSt => some false
      | GState.unitySt => some true
      | GState.normal =>
        match g.children.mapM (fun c =>
            if c.natAbs ≤ t.gateIndex then some ((env c.natAbs).xor (c < 0))
            else (t.evalGate env fuel c.natAbs).map (fun b => b.xor (c < 0))) with
        | none => none
        | some bs =>
          match g.gtype with
          | GateType.andG => some (bs.all id)
          | GateType.orG => some (bs.any id)
          | GateType.nandG => some (!(bs.all id))
          | GateType.norG => some (!(bs.any id))
          | GateType.xorG => match bs with | [a, b] => some (a.xor b) | _ => none
          | GateType.notG => match bs with | [a] => some (!a) | _ => none
          | GateType.nullG => match bs with | [a] => some a | _ => none
          | GateType.atleastG => some (decide (g.voteNumber ≤ (bs.filter id).length))

/-- Boolean function computed at the top event: the top gate's value
combined with the top-event sign. -/
def IFT.evalTop (t : IFT) (env : Nat → Bool) (fuel : Nat) : Option Bool :=
  (t.evalGate env fuel t.topEventIndex).map (fun b => if t.topEventSign < 0 then !b else b)

/-- Primary events reachable from a gate (used to state module
soundness: the basic-event footprint of a subgraph). -/
def IFT.reachPrimaries (t : IFT) : Nat → Nat → List Nat
  | 0, _ => []
  | fuel + 1, i =>
    match t.find? i with
    | none => []
    | some g =>
      g.children.foldl (fun acc c =>
        if c.natAbs ≤ t.gateIndex then insertSortedNat c.natAbs acc
        else (t.reachPrimaries fuel c.natAbs).foldl (fun a x => insertSortedNat x a) acc) []

/-- Primary events reachable from a gate while never entering the gate
`avoid`: the footprint of the graph with subgraph `avoid` cut out. -/
def IFT.reachPrimariesAvoid (t : IFT) (avoid : Nat) : Nat → Nat → List Nat
  | 0, _ => []
  | fuel + 1, i =>
    match t.find? i with
    | none => []
    | some g =>
      g.children.foldl (fun acc c =>
        if c.natAbs ≤ t.gateIndex then insertSortedNat c.natAbs acc
        else if c.natAbs = avoid then acc
        else (t.reachPrimariesAvoid avoid fuel c.natAbs).foldl
          (fun a x => insertSortedNat x a) acc) []

/-- `IndexedFaultTree::GatherParentInformation`: depth-first walk from a
gate recording, for every gate child, this gate as a parent, and
recursing into gate children not yet processed. -/
def IFT.gatherRun : Nat → IFT → Nat → List Int → List Nat → IFT × List Nat
  | 0, t, _, _, pr => (t, pr)
  | _ + 1, t, _, [], pr => (t, pr)
  | fuel + 1, t, idx, c :: rest, pr =>
    if c.natAbs ≤ t.gateIndex then IFT.gatherRun fuel t idx rest pr
    else
      match t.find? c.natAbs with
      | none => IFT.gatherRun fuel t idx rest pr
      | some child =>
        let t2 := t.setGate (child.addParent idx)
        if c.natAbs ∈ pr then IFT.gatherRun fuel t2 idx rest pr
        else
          match t2.find? c.natAbs with
          | none => IFT.gatherRun fuel t2 idx rest pr
          | some child2 =>
            let p2 := IFT.gatherRun fuel t2 c.natAbs child2.children (c.natAbs :: pr)
            IFT.gatherRun fuel p2.1 idx rest p2.2

/-- Entry point of the parent-information walk, starting at the top. -/
def IFT.gatherParentInfo (fuel : Nat) (t : IFT) : IFT :=
  match t.find? t.topEventIndex with
  | none => t
  | some g => (IFT.gatherRun fuel t t.topEventIndex g.children [t.topEventIndex]).1

/-- `IndexedFaultTree::NotifyParentsOfNegativeGates`: if the gate is NOR
or NAND, flip the sign of its index in every recorded parent's child
set. -/
def IFT.notifyParents (t : IFT) (idx : Nat) : IFT :=
  match t.find? idx with
  | none => t
  | some g =>
    if g.gtype = GateType.norG ∨ g.gtype = GateType.nandG then
      g.parents.foldl (fun acc p =>
        match acc.find? p with
        | none => acc
        | some parent =>
          acc.setGate (parent.swapChild (Int.ofNat idx) (-(Int.ofNat idx))).1) t
    else t

/-- `IndexedFaultTree::NormalizeXorGate`: a binary XOR gate becomes an OR
of two freshly allocated AND gates holding `{a, -b}` and `{-a, b}`. -/
def IFT.normalizeXorGate (t : IFT) (idx : Nat) : IFT :=
  match t.find? idx with
  | none => t
  | some g =>
    match g.children with
    | [a, b] =>
      let i1 := t.newGateIndex + 1
      let i2 := t.newGateIndex + 2
      let g1 := (((⟨i1, GateType.andG, 0, [], GState.normal, [], (0, 0, 0)⟩ :
        IndexedGate).addChild a).1.addChild (-b)).1
      let g2 := (((⟨i2, GateType.andG, 0, [], GState.normal, [], (0, 0, 0)⟩ :
        IndexedGate).addChild (-a)).1.addChild b).1
      let g0 : IndexedGate := { g with gtype := GateType.orG, children := [] }
      let g3 := ((g0.addChild (Int.ofNat i1)).1.addChild (Int.ofNat i2)).1
      ((({ t with newGateIndex := i2 }).setGate g1).setGate g2).setGate g3
    | _ => t

/-- Lexicographic insertion into a sorted list of child sets, ignoring
duplicates: the behaviour of `std::set<std::set<int>>::insert`. -/
def insertSetOfSets (s : List Int) : List (List Int) → List (List Int)
  | [] => [s]
  | x :: xs => if s < x then s :: x :: xs else if s = x then x :: xs else x :: insertSetOfSets s xs

/-- One round of the ATLEAST combination builder: extend every collected
set by every child, keeping the sets that grew beyond size `i`. -/
def atleastStep (children : List Int) (i : Nat) (allSets : List (List Int)) : List (List Int) :=
  allSets.foldl (fun tmp s =>
    children.foldl (fun tmp2 c =>
      let s2 := insertSorted c s
      if i < s2.length then insertSetOfSets s2 tmp2 else tmp2) tmp) []

/-- The combination enumeration of `NormalizeAtleastGate`: start from the
singletons and run `vote_number - 1` extension rounds. -/
def atleastSets (children : List Int) (k : Nat) : List (List Int) :=
  (List.range (k - 1)).foldl (fun acc j => atleastStep children (j + 1) acc)
    (children.foldl (fun acc c => insertSetOfSets [c] acc) [])

/-- `IndexedFaultTree::NormalizeAtleastGate`: the ATLEAST gate becomes an
OR over freshly allocated AND gates, one per enumerated combination. -/
def IFT.normalizeAtleastGate (t : IFT) (idx : Nat) : IFT :=
  match t.find? idx with
  | none => t
  | some g =>
    let sets := atleastSets g.children g.voteNumber
    let p := sets.foldl (fun (acc : IFT × IndexedGate) s =>
      let f := acc.1.newGateIndex + 1
      let ng := ((⟨f, GateType.andG, 0, [], GState.normal, [], (0, 0, 0)⟩ :
        IndexedGate).addChildren s).1
      (({ acc.1 with newGateIndex := f }).setGate ng, (acc.2.addChild (Int.ofNat f)).1))
      (t, { g with gtype := GateType.orG, children := [] })
    p.1.setGate p.2

/-- `IndexedFaultTree::NormalizeGate`: dispatch on the gate kind — NOR
and OR become OR, NAND and AND become AND, XOR and ATLEAST are expanded,
NOT and NULL are left for complement propagation to splice out. -/
def IFT.normalizeGate (t : IFT) (idx : Nat) : IFT :=
  match t.find? idx with
  | none => t
  | some g =>
    match g.gtype with
    | GateType.orG => t.setGate { g with gtype := GateType.orG }
    | GateType.norG => t.setGate { g with gtype := GateType.orG }
    | GateType.andG => t.setGate { g with gtype := GateType.andG }
    | GateType.nandG => t.setGate { g with gtype := GateType.andG }
    | GateType.xorG => t.normalizeXorGate idx
    | GateType.atleastG => t.normalizeAtleastGate idx
    | _ => t

/-- `IndexedFaultTree::NormalizeGates`: handle the top event specially —
NOR/NAND tops flip the sign and become OR/AND; a NOT or NULL top is
replaced by (the magnitude of) its single child, multiplying the sign
by -1 for NOT, and normalization restarts; then parent information is
gathered, every non-top NOR/NAND gate negates its occurrences in its
parents, and every gate of the (snapshot) map is normalized. -/
def IFT.normalizeGates : Nat → IFT → Option IFT
  | 0, _ => none
  | fuel + 1, t =>
    match t.find? t.topEventIndex with
    | none => none
    | some top =>
      if top.gtype = GateType.notG ∨ top.gtype = GateType.nullG then
        match top.children with
        | [c] =>
          match t.find? c.natAbs with
          | none => none
          | some _ =>
            IFT.normalizeGates fuel
              { t.eraseGate t.topEventIndex with
                topEventIndex := c.natAbs,
                topEventSign := t.topEventSign *
                  (if top.gtype = GateType.notG then -1 else 1) }
        | _ => none
      else
        let t1 :=
          if top.gtype = GateType.norG then
            { t.setGate { top with gtype := GateType.orG } with
              topEventSign := t.topEventSign * -1 }
          else if top.gtype = GateType.orG then t.setGate { top with gtype := GateType.orG }
          else if top.gtype = GateType.nandG then
            { t.setGate { top with gtype := GateType.andG } with
              topEventSign := t.topEventSign * -1 }
          else if top.gtype = GateType.andG then t.setGate { top with gtype := GateType.andG }
          else t
        let t2 := t1.gatherParentInfo fuel
        let t3 := (t2.gates.map Prod.fst).foldl
          (fun acc k => if k = acc.topEventIndex then acc else acc.notifyParents k) t2
        some ((t3.gates.map Prod.fst).foldl (fun acc k => acc.normalizeGate k) t3)

/-- Complement flip of a determined child value before the parent-kind
table is applied (`if (*it < 0) state = !state;`). -/
def constChildValue (c : Int) (v : Bool) : Bool :=
  if c < 0 then !v else v

/-- `IndexedFaultTree::ProcessConstantChild`: combine a determined child
value with the parent kind.  A false child is dropped from an OR parent
(buffered in `toErase`) and nullifies an AND or NULL parent; a true
child makes an OR parent UNITY and is dropped from an AND or NULL
parent; NOT parents invert.  Returns `true` when the parent became a
constant (the caller then stops scanning). -/
def processConstantChild (g : IndexedGate) (child : Int) (state : Bool) (toErase : List Int) :
    IndexedGate × List Int × Bool :=
  if state = false then
    if g.gtype = GateType.orG then (g, toErase ++ [child], false)
    else if g.gtype = GateType.andG ∨ g.gtype = GateType.nullG then (g.nullify, toErase, true)
    else if g.gtype = GateType.notG then (g.makeUnity, toErase, true)
    else (g, toErase, true)
  else
    if g.gtype = GateType.orG then (g.makeUnity, toErase, true)
    else if g.gtype = GateType.andG ∨ g.gtype = GateType.nullG then (g, toErase ++ [child], false)
    else if g.gtype = GateType.notG then (g.nullify, toErase, true)
    else (g, toErase, true)

/-- Gate-level part of `IndexedFaultTree::RemoveChildren`: erase the
buffered children; a gate left with no children becomes NULL-constant
if it is an OR gate and UNITY otherwise (the branch written for AND). -/
def removeChildrenGate (g : IndexedGate) (toErase : List Int) : IndexedGate :=
  let g2 := toErase.foldl (fun h c => h.eraseChild c) g
  if g2.children = [] then
    (if g2.gtype = GateType.orG then g2.nullify else g2.makeUnity)
  else g2

/-- `IndexedFaultTree::RemoveChildren` on the stored gate. -/
def IFT.removeChildren (t : IFT) (idx : Nat) (toErase : List Int) : IFT :=
  match t.find? idx with
  | none => t
  | some g => t.setGate (removeChildrenGate g toErase)

/-- Recursive scan of `IndexedFaultTree::PropagateConstants` (private):
walk the children of gate `idx` (snapshot `cs`); recurse into gate
children first, then fold any determined value (house event asserted
true/false, or a child gate reduced to a constant) into the parent,
flipping the value for a negated occurrence; on becoming constant the
scan stops at once, otherwise the buffered children are erased at the
end. -/
def IFT.propConstRun :
    Nat → IFT → List Nat → List Nat → Nat → List Int → List Nat → List Int → IFT × List Nat
  | 0, t, _, _, _, _, pr, _ => (t, pr)
  | _ + 1, t, _, _, idx, [], pr, toErase => (t.removeChildren idx toErase, pr)
  | fuel + 1, t, trueHE, falseHE, idx, c :: rest, pr, toErase =>
    if t.gateIndex < c.natAbs then
      let p :=
        if c.natAbs ∈ pr then (t, pr)
        else
          match t.find? c.natAbs with
          | none => (t, c.natAbs :: pr)
          | some cg =>
            IFT.propConstRun fuel t trueHE falseHE c.natAbs cg.children (c.natAbs :: pr) []
      match p.1.find? c.natAbs with
      | none => IFT.propConstRun fuel p.1 trueHE falseHE idx rest p.2 toErase
      | some cg2 =>
        if cg2.gstate = GState.normal then
          IFT.propConstRun fuel p.1 trueHE falseHE idx rest p.2 toErase
        else
          match p.1.find? idx with
          | none => IFT.propConstRun fuel p.1 trueHE falseHE idx rest p.2 toErase
          | some g =>
            let v := constChildValue c (cg2.gstate = GState.unitySt)
            let q := processConstantChild g c v toErase
            if q.2.2 then (p.1.setGate q.1, p.2)
            else IFT.propConstRun fuel p.1 trueHE falseHE idx rest p.2 q.2.1
    else
      if c.natAbs ∈ falseHE ∨ c.natAbs ∈ trueHE then
        match t.find? idx with
        | none => IFT.propConstRun fuel t trueHE falseHE idx rest pr toErase
        | some g =>
          let v := constChildValue c (if c.natAbs ∈ falseHE then false else true)
          let q := processConstantChild g c v toErase
          if q.2.2 then (t.setGate q.1, pr)
          else IFT.propConstRun fuel t trueHE falseHE idx rest pr q.2.1
      else IFT.propConstRun fuel t trueHE falseHE idx rest pr toErase

/-- Public `IndexedFaultTree::PropagateConstants`: with no asserted house
events it returns at once; otherwise it runs the recursive scan from
the top event with an empty processed set. -/
def IFT.propagateConstantsPub (fuel : Nat) (trueHE falseHE : List Nat) (t : IFT) : IFT :=
  if trueHE.isEmpty && falseHE.isEmpty then t
  else
    match t.find? t.topEventIndex with
    | none => t
    | some g =>
      (IFT.propConstRun fuel t trueHE falseHE t.topEventIndex g.children [t.topEventIndex] []).1

/-- Loop of `IndexedFaultTree::PropagateComplements`: position-indexed
scan over the live child set.  A NOT/NULL child gate is spliced out
(multiplying signs) and the scan restarts; a negated gate child is
replaced by its memoized complement clone, or a fresh De-Morgan-dual
clone with inverted children is created, recursed into, and memoized;
a positive gate child not yet processed is recursed into. -/
def IFT.propComplRun :
    Nat → IFT → Nat → Nat → List (Nat × Nat) → List Nat → IFT × List (Nat × Nat) × List Nat
  | 0, t, _, _, comps, pr => (t, comps, pr)
  | fuel + 1, t, idx, pos, comps, pr =>
    match t.find? idx with
    | none => (t, comps, pr)
    | some g =>
      match g.children[pos]? with
      | none => (t, comps, pr)
      | some c =>
        if c.natAbs ≤ t.gateIndex then IFT.propComplRun fuel t idx (pos + 1) comps pr
        else
          match t.find? c.natAbs with
          | none => IFT.propComplRun fuel t idx (pos + 1) comps pr
          | some child =>
            if child.gtype = GateType.notG ∨ child.gtype = GateType.nullG then
              let mult : Int := (if child.gtype = GateType.notG then -1 else 1) *
                (if 0 < c then 1 else -1)
              let q := g.swapChild c (child.children.headD 0 * mult)
              if q.2 then IFT.propComplRun fuel (t.setGate q.1) idx 0 comps pr
              else (t.setGate q.1, comps, pr)
            else if c < 0 then
              match comps.find? (fun p => p.1 = c.natAbs) with
              | some p =>
                IFT.propComplRun fuel (t.setGate (g.swapChild c (Int.ofNat p.2)).1) idx 0 comps pr
              | none =>
                let dual := if child.gtype = GateType.orG then GateType.andG else GateType.orG
                let f := t.newGateIndex + 1
                let ng := (⟨f, dual, 0, child.children, GState.normal, [], ((0 : Nat), (0 : Nat),
                  (0 : Nat))⟩ : IndexedGate).invertChildren
                let t2 := { t.setGate ng with newGateIndex := f }
                let comps2 := (c.natAbs, f) :: comps
                let t3 := t2.setGate (g.swapChild c (Int.ofNat f)).1
                let r := IFT.propComplRun fuel t3 f 0 comps2 (f :: pr)
                IFT.propComplRun fuel r.1 idx 0 r.2.1 r.2.2
            else
              if c.natAbs ∈ pr then IFT.propComplRun fuel t idx (pos + 1) comps pr
              else
                let r := IFT.propComplRun fuel t c.natAbs 0 comps (c.natAbs :: pr)
                IFT.propComplRun fuel r.1 idx (pos + 1) r.2.1 r.2.2

/-- Recursive scan of `IndexedFaultTree::ProcessConstGates`: recurse into
gate children, then fold children that became NULL/UNITY constants into
the parent through the constant-child table, reporting whether anything
changed. -/
def IFT.constGatesRun :
    Nat → IFT → Nat → List Int → List Nat → List Int → Bool → IFT × List Nat × Bool
  | 0, t, _, _, pr, _, ch => (t, pr, ch)
  | _ + 1, t, idx, [], pr, toErase, ch =>
    (t.removeChildren idx toErase, pr, ch || !toErase.isEmpty)
  | fuel + 1, t, idx, c :: rest, pr, toErase, ch =>
    if c.natAbs ≤ t.gateIndex then IFT.constGatesRun fuel t idx rest pr toErase ch
    else
      let p :=
        if c.natAbs ∈ pr then (t, pr, false)
        else
          match t.find? c.natAbs with
          | none => (t, c.natAbs :: pr, false)
          | some cg =>
            if cg.gstate ≠ GState.normal then (t, c.natAbs :: pr, false)
            else IFT.constGatesRun fuel t c.natAbs cg.children (c.natAbs :: pr) [] false
      let ch2 := ch || p.2.2
      match p.1.find? c.natAbs with
      | none => IFT.constGatesRun fuel p.1 idx rest p.2.1 toErase ch2
      | some cg2 =>
        if cg2.gstate = GState.normal then
          IFT.constGatesRun fuel p.1 idx rest p.2.1 toErase ch2
        else
          match p.1.find? idx with
          | none => IFT.constGatesRun fuel p.1 idx rest p.2.1 toErase ch2
          | some g =>
            let q := processConstantChild g c (cg2.gstate = GState.unitySt) toErase
            if q.2.2 then (p.1.setGate q.1, p.2.1, true)
            else IFT.constGatesRun fuel p.1 idx rest p.2.1 q.2.1 ch2

/-- Entry of `IndexedFaultTree::ProcessConstGates`: skip processed or
constant gates, otherwise scan the children. -/
def IFT.processConstGates (fuel : Nat) (t : IFT) (idx : Nat) (pr : List Nat) :
    IFT × List Nat × Bool :=
  if idx ∈ pr then (t, pr, false)
  else
    match t.find? idx with
    | none => (t, idx :: pr, false)
    | some g =>
      if g.gstate ≠ GState.normal then (t, idx :: pr, false)
      else IFT.constGatesRun fuel t idx g.children (idx :: pr) [] false

/-- Loop of `IndexedFaultTree::JoinGates`: position-indexed scan over the
live child set.  A gate child of the parent's own kind is merged into
the parent and the scan restarts; a single-child gate child is replaced
by its grandchild; other gate children are recursed into once.  A
merge or swap that turns the parent constant stops the scan, reporting
a change. -/
def IFT.joinRun : Nat → IFT → Nat → List Nat → Nat → Bool → IFT × List Nat × Bool
  | 0, t, _, pr, _, ch => (t, pr, ch)
  | fuel + 1, t, idx, pr, pos, ch =>
    match t.find? idx with
    | none => (t, pr, ch)
    | some g =>
      match g.children[pos]? with
      | none => (t, pr, ch)
      | some c =>
        if c.natAbs ≤ t.gateIndex then IFT.joinRun fuel t idx pr (pos + 1) ch
        else
          match t.find? c.natAbs with
          | none => IFT.joinRun fuel t idx pr (pos + 1) ch
          | some child =>
            if child.gtype = g.gtype then
              let q := g.mergeGate child
              if q.2 then IFT.joinRun fuel (t.setGate q.1) idx pr 0 true
              else (t.setGate q.1, pr, true)
            else if child.children.length = 1 then
              let q := g.swapChild c (child.children.headD 0)
              if q.2 then IFT.joinRun fuel (t.setGate q.1) idx pr 0 true
              else (t.setGate q.1, pr, true)
            else
              if c.natAbs ∈ pr then IFT.joinRun fuel t idx pr (pos + 1) ch
              else
                let r := IFT.joinRun fuel t c.natAbs (c.natAbs :: pr) 0 false
                IFT.joinRun fuel r.1 idx r.2.1 (pos + 1) (ch || r.2.2)

/-- Entry of `IndexedFaultTree::JoinGates`. -/
def IFT.joinGates (fuel : Nat) (t : IFT) (idx : Nat) (pr : List Nat) : IFT × List Nat × Bool :=
  if idx ∈ pr then (t, pr, false)
  else IFT.joinRun fuel t idx (idx :: pr) 0 false

/-- Top-sign absorption at the start of
`IndexedFaultTree::ProcessIndexedFaultTree`: a negative top sign flips
the top gate's kind between AND and OR, inverts its children, and
resets the sign to +1. -/
def IFT.processTopSign (t : IFT) : IFT :=
  match t.find? t.topEventIndex with
  | none => t
  | some top =>
    if t.topEventSign < 0 then
      { t.setGate { top.invertChildren with
          gtype := if top.gtype = GateType.orG then GateType.andG else GateType.orG } with
        topEventSign := 1 }
    else t

/-- The do-while loop of `ProcessIndexedFaultTree`: coalesce; stop if
nothing changed; otherwise clean up constant gates and repeat while
that cleanup changed anything. -/
def IFT.joinLoop : Nat → IFT → IFT
  | 0, t => t
  | fuel + 1, t =>
    let r := t.joinGates fuel t.topEventIndex []
    if r.2.2 then
      let s := r.1.processConstGates fuel r.1.topEventIndex []
      if s.2.2 then IFT.joinLoop fuel s.1 else s.1
    else r.1

/-- Child scan of `IndexedFaultTree::AssignTiming`: a child of magnitude
below `top_event_index_` is treated as a basic event and stamps its
first/last visit times; otherwise the referenced gate is visited and,
unless already entered and exited, explored.  The `[]` case records the
exit visit of the current gate.  The visit table `vb` maps an index to
its (first, last) visit times (the source keeps it in a stack array
sized by the number of basic events; the model makes it total). -/
def IFT.timingRun :
    Nat → IFT → Nat → Nat → List Int → (Nat → Nat × Nat) → Nat × IFT × (Nat → Nat × Nat)
  | 0, t, time, _, _, vb => (time, t, vb)
  | _ + 1, t, time, idx, [], vb =>
    match t.find? idx with
    | none => (time, t, vb)
    | some g => (time + 1, t.setGate (g.visit (time + 1)).1, vb)
  | fuel + 1, t, time, idx, c :: rest, vb =>
    let i := c.natAbs
    if i < t.topEventIndex then
      let fst := (vb i).1
      let vb2 := fun j =>
        if j = i then (if fst = 0 then (time + 1, time + 1) else (fst, time + 1)) else vb j
      IFT.timingRun fuel t (time + 1) idx rest vb2
    else
      match t.find? i with
      | none => IFT.timingRun fuel t time idx rest vb
      | some cg =>
        let q := cg.visit (time + 1)
        let t2 := t.setGate q.1
        if q.2 then IFT.timingRun fuel t2 (time + 1) idx rest vb
        else
          let r := IFT.timingRun fuel t2 (time + 1) i q.1.children vb
          IFT.timingRun fuel r.2.1 r.1 idx rest r.2.2

/-- Entry of `AssignTiming` from `DetectModules`: visit the top gate at
time 1 and explore its children. -/
def IFT.assignTimingTop (fuel : Nat) (t : IFT) : IFT × (Nat → Nat × Nat) :=
  match t.find? t.topEventIndex with
  | none => (t, fun _ => (0, 0))
  | some g =>
    let q := g.visit 1
    let t2 := t.setGate q.1
    if q.2 then (t2, fun _ => (0, 0))
    else
      let r := IFT.timingRun fuel t2 1 t.topEventIndex q.1.children (fun _ => (0, 0))
      (r.2.1, r.2.2)

/-- `IndexedFaultTree::CreateNewModule`: grouping every child marks the
gate itself as a module; a strict subset moves into a freshly allocated
module gate of the same kind, replacing the grouped children. -/
def IFT.createNewModule (t : IFT) (idx : Nat) (children : List Int) (mods : List Nat) :
    IFT × List Nat :=
  match t.find? idx with
  | none => (t, mods)
  | some g =>
    if children.length = g.children.length then
      if idx ∈ mods then (t, mods) else (t, idx :: mods)
    else
      let f := t.newGateIndex + 1
      let nm := children.foldl (fun h c => h.initiateWithChild c)
        (⟨f, g.gtype, 0, [], GState.normal, [], ((0 : Nat), (0 : Nat), (0 : Nat))⟩ : IndexedGate)
      let g2 := (children.foldl (fun h c => h.eraseChild c) g).initiateWithChild (Int.ofNat f)
      ((({ t with newGateIndex := f }).setGate nm).setGate g2, f :: mods)

/-- `IndexedFaultTree::FilterModularChildren`: repeatedly move every
"modular" child whose visit interval overlaps some non-modular child's
interval over to the non-modular side.  Intervals come from the basic
visit table for magnitudes below `gate_index_` and from the aggregated
gate intervals otherwise. -/
def filterModular :
    Nat → Nat → (Nat → Nat × Nat) → List (Nat × Nat × Nat) → List Int → List Int →
    List Int × List Int
  | 0, _, _, _, md, nm => (md, nm)
  | fuel + 1, gateIndex, vb, visited, md, nm =>
    if md.isEmpty || nm.isEmpty then (md, nm)
    else
      let getMM : Int → Nat × Nat := fun x =>
        if x.natAbs < gateIndex then vb x.natAbs
        else
          match visited.find? (fun p => p.1 = x.natAbs) with
          | some p => (p.2.1, p.2.2)
          | none => (0, 0)
      let step := md.foldl (fun (acc : List Int × List Int) c =>
        let mm := getMM c
        if nm.any (fun d =>
            let lu := getMM d
            max mm.1 lu.1 ≤ min mm.2 lu.2) then
          (acc.1, acc.2 ++ [c])
        else (acc.1 ++ [c], acc.2)) ([], [])
      let r := filterModular fuel gateIndex vb visited step.1 step.2
      (r.1, nm ++ r.2)

/-- Child scan of `IndexedFaultTree::FindOriginalModules`.  A child of
magnitude below `top_event_index_` is read from the basic visit table;
one visited exactly once is non-shared.  A gate child is recursed into,
its aggregated interval is read back, and an unrevisited module child
is non-shared.  Other children are classified modular or non-modular by
strict containment of their interval in the gate's enter/exit window,
and widen the gate's aggregated interval.  The `[]` case marks the gate
a module when its aggregated interval equals its own window, groups
non-shared and filtered modular children into new modules, and records
the aggregated interval (widened by the gate's last revisit). -/
def IFT.modulesRun :
    Nat → IFT → Nat → List Int → Nat → Nat → Nat → Nat → List Int → List Int → List Int →
    (Nat → Nat × Nat) → List (Nat × Nat × Nat) → List Nat →
    IFT × List (Nat × Nat × Nat) × List Nat
  | 0, t, _, _, _, _, _, _, _, _, _, _, visited, mods => (t, visited, mods)
  | fuel + 1, t, idx, [], enter, exitT, minT, maxT, nonShared, modular, nonModular, vb,
      visited, mods =>
    let mods2 := if minT = enter ∧ maxT = exitT then idx :: mods else mods
    let p := if 1 < nonShared.length then t.createNewModule idx nonShared mods2 else (t, mods2)
    let fm := filterModular fuel t.gateIndex vb visited modular nonModular
    let p2 := if 0 < fm.1.length then p.1.createNewModule idx fm.1 p.2 else p
    let lastV := match p2.1.find? idx with | some g => g.lastVisit | none => 0
    (p2.1, (idx, minT, max maxT lastV) :: visited, p2.2)
  | fuel + 1, t, idx, c :: rest, enter, exitT, minT, maxT, nonShared, modular, nonModular, vb,
      visited, mods =>
    let i := c.natAbs
    if i < t.topEventIndex then
      let mn := (vb i).1
      let mx := (vb i).2
      if mn = mx then
        IFT.modulesRun fuel t idx rest enter exitT minT maxT (nonShared ++ [c]) modular
          nonModular vb visited mods
      else
        if enter < mn ∧ mx < exitT then
          IFT.modulesRun fuel t idx rest enter exitT (min minT mn) (max maxT mx) nonShared
            (modular ++ [c]) nonModular vb visited mods
        else
          IFT.modulesRun fuel t idx rest enter exitT (min minT mn) (max maxT mx) nonShared
            modular (nonModular ++ [c]) vb visited mods
    else
      let p :=
        if visited.any (fun q => q.1 = i) then (t, visited, mods)
        else
          match t.find? i with
          | none => (t, visited, mods)
          | some cg =>
            IFT.modulesRun fuel t i cg.children cg.enterTime cg.exitTime cg.enterTime
              cg.exitTime [] [] [] vb visited mods
      match p.2.1.find? (fun q => q.1 = i) with
      | none =>
        IFT.modulesRun fuel p.1 idx rest enter exitT minT maxT nonShared modular nonModular vb
          p.2.1 p.2.2
      | some entry =>
        let mn := entry.2.1
        let mx := entry.2.2
        match p.1.find? i with
        | none =>
          IFT.modulesRun fuel p.1 idx rest enter exitT minT maxT nonShared modular nonModular
            vb p.2.1 p.2.2
        | some cg2 =>
          if i ∈ p.2.2 ∧ cg2.revisited = false then
            IFT.modulesRun fuel p.1 idx rest enter exitT minT maxT (nonShared ++ [c]) modular
              nonModular vb p.2.1 p.2.2
          else
            if enter < mn ∧ mx < exitT then
              IFT.modulesRun fuel p.1 idx rest enter exitT (min minT mn) (max maxT mx)
                nonShared (modular ++ [c]) nonModular vb p.2.1 p.2.2
            else
              IFT.modulesRun fuel p.1 idx rest enter exitT (min minT mn) (max maxT mx)
                nonShared modular (nonModular ++ [c]) vb p.2.1 p.2.2

/-- `IndexedFaultTree::DetectModules`: assign DFS visit times, then find
the original modules from the top gate. -/
def IFT.detectModules (fuel : Nat) (t : IFT) : IFT :=
  let a := t.assignTimingTop fuel
  match a.1.find? a.1.topEventIndex with
  | none => a.1
  | some g =>
    let r := IFT.modulesRun fuel a.1 a.1.topEventIndex g.children g.enterTime g.exitTime
      g.enterTime g.exitTime [] [] [] a.2 [] a.1.modules
    { r.1 with modules := r.2.2 }

/-- `IndexedFaultTree::ProcessIndexedFaultTree`: absorb a negative top
sign, propagate complements, clean up constant gates once, alternate
coalescing with constant cleanup, and, unless the tree collapsed to a
constant, detect modules. -/
def IFT.processIndexedFaultTree (fuel : Nat) (t : IFT) : IFT :=
  let t1 := t.processTopSign
  let t2 := (IFT.propComplRun fuel t1 t1.topEventIndex 0 [] []).1
  let t3 := (t2.processConstGates fuel t2.topEventIndex []).1
  let t4 := IFT.joinLoop fuel t3
  match t4.find? t4.topEventIndex with
  | none => t4
  | some top => if top.children = [] then t4 else t4.detectModules fuel

/-- Assignment making every primary event true. -/
def envTrue : Nat → Bool := fun _ => true

/-- Concrete graph: basic event 1, house event 2, top gate 3 = AND{1, 2}.
Running constant propagation with house 2 asserted false reduces the
top to the NULL constant. -/
def treeA : IFT :=
  ⟨[(3, ⟨3, GateType.andG, 0, [1, 2], GState.normal, [], (0, 0, 0)⟩)], 3, 3, 3, 1, []⟩

/-- Concrete graph: primaries 1 (basic x), 2 (basic y), 3 (house h);
top gate 4 = AND{2, 5}, gate 5 = OR{1, 6}, gate 6 = AND{1, 3}. -/
def treeB : IFT :=
  ⟨[(4, ⟨4, GateType.andG, 0, [2, 5], GState.normal, [], (0, 0, 0)⟩),
    (5, ⟨5, GateType.orG, 0, [1, 6], GState.normal, [], (0, 0, 0)⟩),
    (6, ⟨6, GateType.andG, 0, [1, 3], GState.normal, [], (0, 0, 0)⟩)], 4, 4, 6, 1, []⟩

/-- `treeB` taken through the pipeline: normalization, constant
propagation with house 3 asserted true, then
`ProcessIndexedFaultTree`. -/
def treeBf : IFT :=
  IFT.processIndexedFaultTree 60 (IFT.propagateConstantsPub 50 [3] []
    ((IFT.normalizeGates 50 treeB).getD treeB))

/-- Concrete graph: basics 1, 2, 3; top gate 4 = NULL{6} (the original
top event index, hence `gateIndex = 4`), named gates 5 = OR{1, 2},
6 = AND{5, 7}, 7 = OR{1, 3}.  Gate 5's index lies below gate 6's, which
becomes the new top event index during normalization. -/
def treeC : IFT :=
  ⟨[(4, ⟨4, GateType.nullG, 0, [6], GState.normal, [], (0, 0, 0)⟩),
    (5, ⟨5, GateType.orG, 0, [1, 2], GState.normal, [], (0, 0, 0)⟩),
    (6, ⟨6, GateType.andG, 0, [5, 7], GState.normal, [], (0, 0, 0)⟩),
    (7, ⟨7, GateType.orG, 0, [1, 3], GState.normal, [], (0, 0, 0)⟩)], 4, 4, 8, 1, []⟩

/-- `treeC` taken through normalization and `ProcessIndexedFaultTree`
(no house events, so constant propagation is the identity). -/
def treeCf : IFT :=
  IFT.processIndexedFaultTree 60 ((IFT.normalizeGates 50 treeC).getD treeC)

/-- Concrete graph: basics 1, 2; top gate 5 = NULL{-6} (its single child
literal is the negated gate 6), gate 6 = AND{1, 2}. -/
def treeD : IFT :=
  ⟨[(5, ⟨5, GateType.nullG, 0, [-6], GState.normal, [], (0, 0, 0)⟩),
    (6, ⟨6, GateType.andG, 0, [1, 2], GState.normal, [], (0, 0, 0)⟩)], 5, 5, 6, 1, []⟩

/-- Concrete graph: basics 1, 2, 3; top gate 4 = ATLEAST with vote
number 2 over children {1, 2, 3}. -/
def treeE : IFT :=
  ⟨[(4, ⟨4, GateType.atleastG, 2, [1, 2, 3], GState.normal, [], (0, 0, 0)⟩)], 4, 4, 4, 1, []⟩

/-- Concrete graph: basics 1, 2; top gate 4 = XOR{1, 2}. -/
def treeF : IFT :=
  ⟨[(4, ⟨4, GateType.xorG, 0, [1, 2], GState.normal, [], (0, 0, 0)⟩)], 4, 4, 4, 1, []⟩

/-- Concrete graph: basics 1, 2; top gate 5 = NULL{6} with a positive
single child, gate 6 = AND{1, 2}. -/
def treeG : IFT :=
  ⟨[(5, ⟨5, GateType.nullG, 0, [6], GState.normal, [], (0, 0, 0)⟩),
    (6, ⟨6, GateType.andG, 0, [1, 2], GState.normal, [], (0, 0, 0)⟩)], 5, 5, 6, 1, []⟩

/-- Concrete graph with a pending negative top sign: basics 1, 2; top
gate 3 = OR{1, 2}; `topEventSign = -1` (as left by normalizing a NOR
top). -/
def treeI : IFT :=
  ⟨[(3, ⟨3, GateType.orG, 0, [1, 2], GState.normal, [], (0, 0, 0)⟩)], 3, 3, 3, -1, []⟩

/-- `treeF` taken through `NormalizeGates` (the XOR top expands into an
OR of two fresh AND gates). -/
def treeFn : IFT := (IFT.normalizeGates 20 treeF).getD treeF

/-- Well-formedness of the gate map: every stored gate's own index field
equals its key.  This always holds of the source's `indexed_gates_` map,
whose entries are inserted as `(gate->index(), gate)`. -/
def IFT.WF (t : IFT) : Prop := ∀ p ∈ t.gates, p.2.index = p.1

/-- The gate stored at index `k` exists and is neither a NOT nor a NULL
gate (the single-child sign-carrier kinds that normalization
eliminates from the top). -/
def IFT.resolvedAt (t : IFT) (k : Nat) : Prop :=
  ∃ tg, t.find? k = some tg ∧ tg.gtype ≠ GateType.notG ∧ tg.gtype ≠ GateType.nullG

/-- Data-model invariant (specification section 3): every gate's child
set is strictly ascending (a `std::set<int>`), and a literal and its
negation may not coexist. -/
def IFT.goodChildren (t : IFT) : Prop :=
  ∀ j g, t.find? j = some g →
    g.children.Pairwise (· < ·) ∧ ∀ x ∈ g.children, -x ∉ g.children

/-- Data-model invariant: every XOR gate is binary (larger XOR input is
rejected before indexing; the source asserts two children). -/
def IFT.xorBinary (t : IFT) : Prop :=
  ∀ j g, t.find? j = some g → g.gtype = GateType.xorG → ∃ a b, g.children = [a, b]

/-- Accuracy of the recorded parent information: a recorded parent `p`
of gate `j` really holds a reference to `j` among its children. -/
def IFT.parentsAcc (t : IFT) : Prop :=
  ∀ j g p, t.find? j = some g → p ∈ g.parents →
    ∃ pg, t.find? p = some pg ∧ ∃ c, c ∈ pg.children ∧ c.natAbs = j

/-- Every key of the gate map is at most the fresh-index counter, so
freshly synthesized indices never collide with stored gates (the
counter is seeded above every user-allocated index). -/
def IFT.keysBounded (t : IFT) : Prop := ∀ p ∈ t.gates, p.1 ≤ t.newGateIndex

/-- Before normalization gathers parent information, no gate carries any
parent record (gates are created with empty parent sets). -/
def IFT.parentsEmpty (t : IFT) : Prop := ∀ p ∈ t.gates, p.2.parents = []

/-- Combined structural invariant threaded through the normalization
passes: a well-formed map, keys bounded by the fresh-index counter,
data-model child sets, binary XOR gates, and accurate parent records. -/
def IFT.normShape (t : IFT) : Prop :=
  t.WF ∧ t.keysBounded ∧ t.goodChildren ∧ t.xorBinary ∧ t.parentsAcc

/-! ## Theorems -/

/-! ### Basic lemmas about the map and set primitives -/

theorem mem_insertSorted {x a : Int} : ∀ {l : List Int},
    a ∈ insertSorted x l ↔ a = x ∨ a ∈ l := by
  intro l
  induction l with
  | nil => simp [insertSorted]
  | cons y ys ih =>
    by_cases h1 : x < y
    · simp only [insertSorted, if_pos h1, List.mem_cons]
    · by_cases h2 : x = y
      · subst h2
        rw [show insertSorted x (x :: ys) = x :: ys by simp [insertSorted, h1]]
        simp only [List.mem_cons]
        tauto
      · simp only [insertSorted, if_neg h1, if_neg h2, List.mem_cons, ih]
        tauto

theorem find?_insertGateList_self (i : Nat) (g : IndexedGate) : ∀ (l : List (Nat × IndexedGate)),
    ((insertGateList i g l).find? (fun p => p.1 = i)).map Prod.snd = some g := by
  intro l
  induction l with
  | nil => simp [insertGateList]
  | cons p rest ih =>
    by_cases h1 : i < p.1
    · simp [insertGateList, h1]
    · by_cases h2 : i = p.1
      · simp [insertGateList, h1, h2]
      · rw [show insertGateList i g (p :: rest) = p :: insertGateList i g rest by
          simp [insertGateList, h1, h2]]
        rw [List.find?_cons_of_neg _ (by simpa using fun h => h2 h.symm)]
        exact ih

theorem find?_insertGateList_ne (i j : Nat) (g : IndexedGate) (hne : j ≠ i) :
    ∀ (l : List (Nat × IndexedGate)),
    (insertGateList i g l).find? (fun p => p.1 = j) = l.find? (fun p => p.1 = j) := by
  intro l
  induction l with
  | nil => simp [insertGateList, Ne.symm hne]
  | cons p rest ih =>
    by_cases h1 : i < p.1
    · rw [show insertGateList i g (p :: rest) = (i, g) :: p :: rest by simp [insertGateList, h1]]
      rw [List.find?_cons_of_neg _ (by simpa using Ne.symm hne)]
    · by_cases h2 : i = p.1
      · rw [show insertGateList i g (p :: rest) = (i, g) :: rest by simp [insertGateList, h1, h2]]
        rw [List.find?_cons_of_neg _ (by simpa using Ne.symm hne),
          List.find?_cons_of_neg _ (by simpa using (h2 ▸ Ne.symm hne : p.1 ≠ j))]
      · rw [show insertGateList i g (p :: rest) = p :: insertGateList i g rest by
          simp [insertGateList, h1, h2]]
        by_cases h3 : p.1 = j
        · rw [List.find?_cons_of_pos _ (by simpa using h3),
            List.find?_cons_of_pos _ (by simpa using h3)]
        · rw [List.find?_cons_of_neg _ (by simpa using h3),
            List.find?_cons_of_neg _ (by simpa using h3)]
          exact ih

theorem find?_setGate_self (t : IFT) (g : IndexedGate) :
    (t.setGate g).find? g.index = some g := by
  simp only [IFT.setGate, IFT.find?]
  exact find?_insertGateList_self g.index g t.gates

theorem find?_setGate_ne (t : IFT) (g : IndexedGate) (j : Nat) (h : j ≠ g.index) :
    (t.setGate g).find? j = t.find? j := by
  simp only [IFT.setGate, IFT.find?]
  rw [find?_insertGateList_ne g.index j g h]

theorem find?_setGate_cases (t : IFT) (g : IndexedGate) (j : Nat) :
    (t.setGate g).find? j = some g ∨ (t.setGate g).find? j = t.find? j := by
  by_cases h : j = g.index
  · subst h; exact Or.inl (find?_setGate_self t g)
  · exact Or.inr (find?_setGate_ne t g j h)

/-- C1.  The Boolean function computed at the top event is not invariant
under constant propagation: on the valid graph obtained by running
`PropagateConstants` (house 2 false) once on `treeA` — whose top gate is
the childless NULL constant, as the data model requires of constants —
running the pass again flips the empty AND top to UNITY through
`RemoveChildren`, changing the computed function from constantly false
to constantly true. -/
theorem c1_propagate_constants_changes_top_function :
    ((IFT.propagateConstantsPub 50 [] [2] treeA).find? 3).map
        (fun g => (g.gtype, g.gstate, g.children)) =
      some (GateType.andG, GState.nullSt, []) ∧
    (IFT.propagateConstantsPub 50 [] [2] treeA).evalTop envTrue 50 = some false ∧
    (IFT.propagateConstantsPub 50 [] [2]
      (IFT.propagateConstantsPub 50 [] [2] treeA)).evalTop envTrue 50 = some true :=
  ⟨rfl, rfl, rfl⟩

/-- C9.  Constant propagation is not idempotent: on `treeA` (top AND of
basic 1 and house 2, house 2 asserted false) the first run nullifies the
top gate, and the second run — the claim's own scenario — changes the
graph again, flipping the childless top's state from NULL-constant to
UNITY via the empty-children rule of `RemoveChildren`. -/
theorem c9_propagate_constants_not_idempotent :
    ((IFT.propagateConstantsPub 50 [] [2] treeA).find? 3).map IndexedGate.gstate =
      some GState.nullSt ∧
    ((IFT.propagateConstantsPub 50 [] [2]
        (IFT.propagateConstantsPub 50 [] [2] treeA)).find? 3).map IndexedGate.gstate =
      some GState.unitySt ∧
    IFT.propagateConstantsPub 50 [] [2] (IFT.propagateConstantsPub 50 [] [2] treeA) ≠
      IFT.propagateConstantsPub 50 [] [2] treeA :=
  ⟨rfl, rfl, by decide⟩

/-- C2.  After `ProcessIndexedFaultTree` completes on the pipeline image
of `treeB` (house 3 true), whose top is not a constant, the reachable
gate 5 is a normal OR gate with exactly one child: the coalescing loop
exits after `JoinGates` deduplicated the swapped grandchild, because the
final `ProcessConstGates` finds no constants, contradicting the claimed
(and source-commented) post-condition that every gate has at least two
children. -/
theorem c2_single_child_gate_survives_processing :
    (IFT.normalizeGates 50 treeB).isSome = true ∧
    (treeBf.find? 5).map (fun g => (g.gtype, g.gstate, g.children)) =
      some (GateType.orG, GState.normal, [1]) ∧
    (treeBf.find? treeBf.topEventIndex).map IndexedGate.children = some [2, 5] :=
  ⟨rfl, rfl, rfl⟩

/-- C4.  Module detection marks gate 7 of `treeCf` as a module although
basic event 1 is reachable both from gate 7 and from the rest of the
graph (through gate 5): after normalization moved `top_event_index_`
from 4 to 6, `AssignTiming` and `FindOriginalModules` treat gate 5
(index below the new top index) as a basic event, never explore its
subgraph, and so never see that it shares basic 1 with gate 7. -/
theorem c4_unsound_module_detected :
    (IFT.normalizeGates 50 treeC).isSome = true ∧
    7 ∈ treeCf.modules ∧
    1 ∈ treeCf.reachPrimaries 50 7 ∧
    1 ∈ treeCf.reachPrimariesAvoid 7 50 treeCf.topEventIndex := by
  refine ⟨rfl, ?_, ?_, ?_⟩ <;> decide

/-- C10.  With both house-event sets empty, the public
`PropagateConstants` entry point returns immediately and the indexed
graph is completely unchanged: no gate's kind, state, or child set is
modified. -/
theorem c10_propagate_constants_empty_noop (fuel : Nat) (t : IFT) :
    IFT.propagateConstantsPub fuel [] [] t = t := rfl

theorem gtype_foldl_eraseChild (te : List Int) : ∀ (g : IndexedGate),
    (te.foldl (fun h x => IndexedGate.eraseChild h x) g).gtype = g.gtype := by
  induction te with
  | nil => intro g; rfl
  | cons a rest ih => intro g; exact ih (g.eraseChild a)

/-- C3.  The constant-child rules of constant propagation: a false child
is dropped from an OR parent (buffered for erasure) and makes an AND
parent NULL-constant; a true child makes an OR parent UNITY and is
dropped from an AND parent; a negated child occurrence has its value
flipped before the table applies; and a gate whose children all vanish
at the end of the scan becomes UNITY if it is an AND gate and
NULL-constant if it is an OR gate. -/
theorem c3_constant_child_rules :
    (∀ (g : IndexedGate) (c : Int) (te : List Int), g.gtype = GateType.orG →
      processConstantChild g c false te = (g, te ++ [c], false)) ∧
    (∀ (g : IndexedGate) (c : Int) (te : List Int), g.gtype = GateType.andG →
      processConstantChild g c false te = (g.nullify, te, true)) ∧
    (∀ (g : IndexedGate) (c : Int) (te : List Int), g.gtype = GateType.orG →
      processConstantChild g c true te = (g.makeUnity, te, true)) ∧
    (∀ (g : IndexedGate) (c : Int) (te : List Int), g.gtype = GateType.andG →
      processConstantChild g c true te = (g, te ++ [c], false)) ∧
    (∀ (c : Int) (v : Bool), c < 0 → constChildValue c v = !v) ∧
    (∀ (c : Int) (v : Bool), 0 ≤ c → constChildValue c v = v) ∧
    (∀ (g : IndexedGate) (te : List Int), g.gtype = GateType.andG →
      (te.foldl (fun h x => IndexedGate.eraseChild h x) g).children = [] →
      removeChildrenGate g te =
        (te.foldl (fun h x => IndexedGate.eraseChild h x) g).makeUnity) ∧
    (∀ (g : IndexedGate) (te : List Int), g.gtype = GateType.orG →
      (te.foldl (fun h x => IndexedGate.eraseChild h x) g).children = [] →
      removeChildrenGate g te =
        (te.foldl (fun h x => IndexedGate.eraseChild h x) g).nullify) := by
  refine ⟨?_, ?_, ?_, ?_, ?_, ?_, ?_, ?_⟩
  · intro g c te h; simp [processConstantChild, h]
  · intro g c te h; simp [processConstantChild, h]
  · intro g c te h; simp [processConstantChild, h]
  · intro g c te h; simp [processConstantChild, h]
  · intro c v h; simp [constChildValue, h]
  · intro c v h; simp [constChildValue, not_lt.mpr h]
  · intro g te h1 h2
    simp [removeChildrenGate, h2, gtype_foldl_eraseChild, h1]
  · intro g te h1 h2
    simp [removeChildrenGate, h2, gtype_foldl_eraseChild, h1]

theorem c3_constant_child_rules_witness :
    (⟨9, GateType.orG, 0, [1, 2], GState.normal, [], (0, 0, 0)⟩ : IndexedGate).gtype =
      GateType.orG ∧
    processConstantChild ⟨9, GateType.orG, 0, [1, 2], GState.normal, [], (0, 0, 0)⟩ 2 false [] =
      (⟨9, GateType.orG, 0, [1, 2], GState.normal, [], (0, 0, 0)⟩, [2], false) ∧
    constChildValue (-2) true = false ∧
    removeChildrenGate ⟨9, GateType.andG, 0, [1], GState.normal, [], (0, 0, 0)⟩ [1] =
      (⟨9, GateType.andG, 0, [], GState.unitySt, [], (0, 0, 0)⟩ : IndexedGate) := by
  refine ⟨rfl, c3_constant_child_rules.1 _ 2 [] rfl, ?_, ?_⟩
  · exact c3_constant_child_rules.2.2.2.2.1 (-2) true (by decide)
  · exact c3_constant_child_rules.2.2.2.2.2.2.1
      ⟨9, GateType.andG, 0, [1], GState.normal, [], (0, 0, 0)⟩ [1] rfl (by decide)

/-! ### Sign preservation through the normalization machinery -/

theorem foldl_preserves_sign {α : Type} (f : IFT → α → IFT)
    (h : ∀ (t : IFT) (a : α), (f t a).topEventSign = t.topEventSign) :
    ∀ (l : List α) (t : IFT), (l.foldl f t).topEventSign = t.topEventSign := by
  intro l
  induction l with
  | nil => intro t; rfl
  | cons a rest ih => intro t; rw [List.foldl_cons, ih, h]

theorem gatherRun_sign : ∀ (fuel : Nat) (t : IFT) (idx : Nat) (cs : List Int) (pr : List Nat),
    (IFT.gatherRun fuel t idx cs pr).1.topEventSign = t.topEventSign := by
  intro fuel
  induction fuel with
  | zero => intro t idx cs pr; rfl
  | succ n ih =>
    intro t idx cs pr
    cases cs with
    | nil => rfl
    | cons c rest =>
      simp only [IFT.gatherRun]
      split
      · exact ih ..
      · split
        · exact ih ..
        · split
          · exact ih ..
          · split
            · exact ih ..
            · rw [ih, ih]; rfl

theorem gatherParentInfo_sign (fuel : Nat) (t : IFT) :
    (t.gatherParentInfo fuel).topEventSign = t.topEventSign := by
  unfold IFT.gatherParentInfo
  split
  · rfl
  · exact gatherRun_sign ..

theorem notifyParents_sign (t : IFT) (idx : Nat) :
    (t.notifyParents idx).topEventSign = t.topEventSign := by
  unfold IFT.notifyParents
  split
  · rfl
  · split
    · refine foldl_preserves_sign _ ?_ _ _
      intro u p
      split
      · rfl
      · rfl
    · rfl

theorem normalizeXorGate_sign (t : IFT) (idx : Nat) :
    (t.normalizeXorGate idx).topEventSign = t.topEventSign := by
  unfold IFT.normalizeXorGate
  split
  · rfl
  · split
    · rfl
    · rfl

theorem atleastFold_sign (sets : List (List Int)) :
    ∀ (p : IFT × IndexedGate),
    ((sets.foldl (fun (acc : IFT × IndexedGate) s =>
      let f := acc.1.newGateIndex + 1
      let ng := ((⟨f, GateType.andG, 0, [], GState.normal, [], ((0 : Nat), (0 : Nat),
        (0 : Nat))⟩ : IndexedGate).addChildren s).1
      (({ acc.1 with newGateIndex := f }).setGate ng, (acc.2.addChild (Int.ofNat f)).1))
      p).1).topEventSign = p.1.topEventSign := by
  induction sets with
  | nil => intro p; rfl
  | cons s rest ih => intro p; rw [List.foldl_cons, ih]; rfl

theorem normalizeAtleastGate_sign (t : IFT) (idx : Nat) :
    (t.normalizeAtleastGate idx).topEventSign = t.topEventSign := by
  unfold IFT.normalizeAtleastGate
  split
  · rfl
  · exact atleastFold_sign _ _

theorem normalizeGate_sign (t : IFT) (idx : Nat) :
    (t.normalizeGate idx).topEventSign = t.topEventSign := by
  unfold IFT.normalizeGate
  split
  · rfl
  · split
    · rfl
    · rfl
    · rfl
    · rfl
    · exact normalizeXorGate_sign ..
    · exact normalizeAtleastGate_sign ..
    · rfl

theorem normalizeGates_sign : ∀ (fuel : Nat) (t u : IFT),
    IFT.normalizeGates fuel t = some u →
    (t.topEventSign = 1 ∨ t.topEventSign = -1) →
    (u.topEventSign = 1 ∨ u.topEventSign = -1) := by
  intro fuel
  induction fuel with
  | zero => intro t u h; exact Option.noConfusion h
  | succ n ih =>
    intro t u h hs
    rw [IFT.normalizeGates] at h
    revert h
    split
    · intro h; exact Option.noConfusion h
    · next top hfind =>
      split
      · split
        · split
          · intro h; exact Option.noConfusion h
          · intro h
            refine ih _ u h ?_
            rcases hs with hs | hs <;> split <;> simp only [hs] <;> norm_num
        · intro h; exact Option.noConfusion h
      · intro h
        have h2 := h
        simp only [Option.some.injEq] at h2
        subst h2
        rw [foldl_preserves_sign _ normalizeGate_sign,
          foldl_preserves_sign _ (fun t a => by
            split
            · rfl
            · exact notifyParents_sign ..),
          gatherParentInfo_sign]
        split
        · rcases hs with hs | hs <;> rw [hs] <;> simp
        · split
          · exact hs
          · split
            · rcases hs with hs | hs <;> rw [hs] <;> simp
            · split
              · exact hs
              · exact hs

/-- C8.  After normalization the top-event sign is plus or minus one and
any residual negation is absorbed at the start of cut-set processing:
`ProcessIndexedFaultTree` flips the top gate's kind between AND and OR
and inverts its children exactly when the sign is negative, and in
every case leaves the sign equal to +1, so no residual sign remains. -/
theorem c8_top_sign_absorbed :
    (∀ (fuel : Nat) (t u : IFT), IFT.normalizeGates fuel t = some u →
      (t.topEventSign = 1 ∨ t.topEventSign = -1) →
      (u.topEventSign = 1 ∨ u.topEventSign = -1)) ∧
    (∀ (t : IFT) (top : IndexedGate), t.find? t.topEventIndex = some top →
      (t.topEventSign = 1 ∨ t.topEventSign = -1) →
      t.processTopSign.topEventSign = 1 ∧
      (t.topEventSign = -1 →
        t.processTopSign = { t.setGate { top.invertChildren with
          gtype := if top.gtype = GateType.orG then GateType.andG else GateType.orG } with
          topEventSign := 1 }) ∧
      (t.topEventSign = 1 → t.processTopSign = t)) := by
  constructor
  · exact normalizeGates_sign
  · intro t top hfind hs
    refine ⟨?_, ?_, ?_⟩
    · unfold IFT.processTopSign
      rw [hfind]
      rcases hs with hs | hs <;> simp [hs]
    · intro hneg
      unfold IFT.processTopSign
      rw [hfind, hneg]
      simp
    · intro hpos
      unfold IFT.processTopSign
      rw [hfind, hpos]
      simp

theorem c8_top_sign_absorbed_witness :
    (IFT.normalizeGates 5 treeG = some ((IFT.normalizeGates 5 treeG).getD treeG) ∧
      (treeG.topEventSign = 1 ∨ treeG.topEventSign = -1) ∧
      (((IFT.normalizeGates 5 treeG).getD treeG).topEventSign = 1 ∨
        ((IFT.normalizeGates 5 treeG).getD treeG).topEventSign = -1)) ∧
    (treeI.find? treeI.topEventIndex =
        some ⟨3, GateType.orG, 0, [1, 2], GState.normal, [], (0, 0, 0)⟩ ∧
      (treeI.topEventSign = 1 ∨ treeI.topEventSign = -1) ∧
      treeI.processTopSign.topEventSign = 1) := by
  refine ⟨⟨rfl, Or.inl rfl, ?_⟩, rfl, Or.inr rfl, ?_⟩
  · exact c8_top_sign_absorbed.1 5 treeG _ rfl (Or.inl rfl)
  · exact (c8_top_sign_absorbed.2 treeI _ rfl (Or.inr rfl)).1

/-! ### Well-formedness and gtype-frame lemmas -/

theorem mem_insertGateList {i : Nat} {g : IndexedGate} {q : Nat × IndexedGate} :
    ∀ {l : List (Nat × IndexedGate)}, q ∈ insertGateList i g l → q = (i, g) ∨ q ∈ l := by
  intro l
  induction l with
  | nil => intro h; simpa [insertGateList] using h
  | cons p rest ih =>
    intro h
    by_cases h1 : i < p.1
    · rw [show insertGateList i g (p :: rest) = (i, g) :: p :: rest by
        simp [insertGateList, h1]] at h
      simpa using h
    · by_cases h2 : i = p.1
      · rw [show insertGateList i g (p :: rest) = (i, g) :: rest by
          simp [insertGateList, h1, h2]] at h
        rcases List.mem_cons.mp h with h | h
        · exact Or.inl h
        · exact Or.inr (List.mem_cons_of_mem _ h)
      · rw [show insertGateList i g (p :: rest) = p :: insertGateList i g rest by
          simp [insertGateList, h1, h2]] at h
        rcases List.mem_cons.mp h with h | h
        · exact Or.inr (List.mem_cons.mpr (Or.inl h))
        · rcases ih h with h | h
          · exact Or.inl h
          · exact Or.inr (List.mem_cons_of_mem _ h)

theorem wf_setGate {t : IFT} (g : IndexedGate) (h : t.WF) : (t.setGate g).WF := by
  intro p hp
  rcases mem_insertGateList hp with rfl | hp2
  · rfl
  · exact h p hp2

theorem wf_eraseGate {t : IFT} (i : Nat) (h : t.WF) : (t.eraseGate i).WF := by
  intro p hp
  exact h p (List.mem_of_mem_filter hp)

theorem wf_find?_index {t : IFT} (h : t.WF) {j : Nat} {g : IndexedGate}
    (hf : t.find? j = some g) : g.index = j := by
  unfold IFT.find? at hf
  cases he : t.gates.find? (fun p => p.1 = j) with
  | none => rw [he] at hf; exact Option.noConfusion hf
  | some p =>
    rw [he] at hf
    have hf2 : p.2 = g := by
      cases hf; rfl
    have h1 : p.1 = j := by simpa using List.find?_some he
    have h2 : p ∈ t.gates := List.mem_of_find?_eq_some he
    rw [← hf2]
    exact (h p h2).trans h1

theorem addChild_gtype (g : IndexedGate) (c : Int) : (g.addChild c).1.gtype = g.gtype := by
  unfold IndexedGate.addChild
  split <;> rfl

theorem addChild_index (g : IndexedGate) (c : Int) : (g.addChild c).1.index = g.index := by
  unfold IndexedGate.addChild
  split <;> rfl

theorem swapChild_gtype (g : IndexedGate) (a b : Int) :
    (g.swapChild a b).1.gtype = g.gtype := by
  unfold IndexedGate.swapChild
  exact addChild_gtype ..

theorem swapChild_index (g : IndexedGate) (a b : Int) :
    (g.swapChild a b).1.index = g.index := by
  unfold IndexedGate.swapChild
  exact addChild_index ..

theorem find?_gtype_setGate_same (t : IFT) (g g2 : IndexedGate) (j : Nat)
    (hidx : g2.index = g.index) (hty : g2.gtype = g.gtype) (hf : t.find? g.index = some g) :
    ((t.setGate g2).find? j).map IndexedGate.gtype = (t.find? j).map IndexedGate.gtype := by
  by_cases hj : j = g2.index
  · subst hj
    rw [find?_setGate_self, hidx, hf]
    simpa using hty
  · rw [find?_setGate_ne _ _ _ hj]

theorem gatherRun_gtype : ∀ (fuel : Nat) (t : IFT) (idx : Nat) (cs : List Int) (pr : List Nat),
    t.WF →
    (IFT.gatherRun fuel t idx cs pr).1.WF ∧
    (∀ j, (((IFT.gatherRun fuel t idx cs pr).1.find? j).map IndexedGate.gtype =
      (t.find? j).map IndexedGate.gtype)) ∧
    (IFT.gatherRun fuel t idx cs pr).1.topEventIndex = t.topEventIndex := by
  intro fuel
  induction fuel with
  | zero => intro t idx cs pr hwf; exact ⟨hwf, fun j => rfl, rfl⟩
  | succ n ih =>
    intro t idx cs pr hwf
    cases cs with
    | nil => exact ⟨hwf, fun j => rfl, rfl⟩
    | cons c rest =>
      simp only [IFT.gatherRun]
      split
      · exact ih t idx rest pr hwf
      · split
        · exact ih t idx rest pr hwf
        · next child hchild =>
          have hidx : child.index = c.natAbs := wf_find?_index hwf hchild
          have hwf2 : (t.setGate (child.addParent idx)).WF := wf_setGate _ hwf
          have hgt2 : ∀ j, (((t.setGate (child.addParent idx)).find? j).map IndexedGate.gtype =
              (t.find? j).map IndexedGate.gtype) := by
            intro j
            exact find?_gtype_setGate_same t child (child.addParent idx) j rfl rfl
              (hidx ▸ hchild)
          split
          · obtain ⟨w1, w2, w3⟩ := ih (t.setGate (child.addParent idx)) idx rest pr hwf2
            exact ⟨w1, fun j => (w2 j).trans (hgt2 j), w3⟩
          · split
            · obtain ⟨w1, w2, w3⟩ := ih (t.setGate (child.addParent idx)) idx rest pr hwf2
              exact ⟨w1, fun j => (w2 j).trans (hgt2 j), w3⟩
            · next child2 hchild2 =>
              obtain ⟨v1, v2, v3⟩ :=
                ih (t.setGate (child.addParent idx)) c.natAbs child2.children
                  (c.natAbs :: pr) hwf2
              obtain ⟨w1, w2, w3⟩ := ih _ idx rest _ v1
              exact ⟨w1, fun j => ((w2 j).trans (v2 j)).trans (hgt2 j), w3.trans v3⟩

theorem foldl_preserves_prop {α : Type} (P : IFT → Prop) (f : IFT → α → IFT)
    (h : ∀ (t : IFT) (a : α), P t → P (f t a)) :
    ∀ (l : List α) (t : IFT), P t → P (l.foldl f t) := by
  intro l
  induction l with
  | nil => intro t ht; exact ht
  | cons a rest ih => intro t ht; exact ih _ (h t a ht)

theorem resolvedAt_gtype_eq {t u : IFT} {k : Nat}
    (h : ∀ j, (u.find? j).map IndexedGate.gtype = (t.find? j).map IndexedGate.gtype) :
    t.resolvedAt k → u.resolvedAt k := by
  rintro ⟨tg, hf, hn1, hn2⟩
  have h2 := h k
  rw [hf] at h2
  cases hu : u.find? k with
  | none => rw [hu] at h2; exact Option.noConfusion h2
  | some ug =>
    rw [hu] at h2
    have h3 : ug.gtype = tg.gtype := Option.some.inj h2
    exact ⟨ug, hu, h3 ▸ hn1, h3 ▸ hn2⟩

theorem resolvedAt_setGate (t : IFT) (g : IndexedGate) (k : Nat)
    (hg : g.gtype ≠ GateType.notG ∧ g.gtype ≠ GateType.nullG) :
    t.resolvedAt k → (t.setGate g).resolvedAt k := by
  rintro ⟨tg, hf, hn1, hn2⟩
  rcases find?_setGate_cases t g k with h | h
  · exact ⟨g, h, hg.1, hg.2⟩
  · exact ⟨tg, h.trans hf, hn1, hn2⟩

theorem resolvedAt_normalizeXorGate (t : IFT) (idx k : Nat) :
    t.resolvedAt k → (t.normalizeXorGate idx).resolvedAt k := by
  intro h
  unfold IFT.normalizeXorGate
  split
  · exact h
  · split
    · refine resolvedAt_setGate _ _ _ ⟨?_, ?_⟩ (resolvedAt_setGate _ _ _ ⟨?_, ?_⟩
        (resolvedAt_setGate _ _ _ ⟨?_, ?_⟩ h)) <;>
        simp [addChild_gtype]
    · exact h

theorem atleastFold_resolvedAt (sets : List (List Int)) (k : Nat) :
    ∀ (p : IFT × IndexedGate),
    p.1.resolvedAt k →
    ((sets.foldl (fun (acc : IFT × IndexedGate) s =>
      let f := acc.1.newGateIndex + 1
      let ng := ((⟨f, GateType.andG, 0, [], GState.normal, [], ((0 : Nat), (0 : Nat),
        (0 : Nat))⟩ : IndexedGate).addChildren s).1
      (({ acc.1 with newGateIndex := f }).setGate ng, (acc.2.addChild (Int.ofNat f)).1))
      p).1).resolvedAt k := by
  induction sets with
  | nil => intro p h; exact h
  | cons s rest ih =>
    intro p h
    rw [List.foldl_cons]
    refine ih _ ?_
    refine resolvedAt_setGate _ _ _ ⟨?_, ?_⟩ ?_
    · rw [show ∀ (s2 : List Int) (g : IndexedGate), (g.addChildren s2).1.gtype = g.gtype from ?_]
      · simp
      · intro s2
        induction s2 with
        | nil => intro g; rfl
        | cons a r2 ihr =>
          intro g
          simp only [IndexedGate.addChildren]
          split
          · exact (ihr _).trans (addChild_gtype g a)
          · exact addChild_gtype g a
    · rw [show ∀ (s2 : List Int) (g : IndexedGate), (g.addChildren s2).1.gtype = g.gtype from ?_]
      · simp
      · intro s2
        induction s2 with
        | nil => intro g; rfl
        | cons a r2 ihr =>
          intro g
          simp only [IndexedGate.addChildren]
          split
          · exact (ihr _).trans (addChild_gtype g a)
          · exact addChild_gtype g a
    · rcases h with ⟨tg, hf, hn1, hn2⟩
      exact ⟨tg, hf, hn1, hn2⟩

theorem atleastFold_gtype2 (sets : List (List Int)) :
    ∀ (p : IFT × IndexedGate),
    ((sets.foldl (fun (acc : IFT × IndexedGate) s =>
      let f := acc.1.newGateIndex + 1
      let ng := ((⟨f, GateType.andG, 0, [], GState.normal, [], ((0 : Nat), (0 : Nat),
        (0 : Nat))⟩ : IndexedGate).addChildren s).1
      (({ acc.1 with newGateIndex := f }).setGate ng, (acc.2.addChild (Int.ofNat f)).1))
      p).2).gtype = p.2.gtype := by
  induction sets with
  | nil => intro p; rfl
  | cons s rest ih =>
    intro p
    rw [List.foldl_cons, ih]
    exact addChild_gtype ..

theorem atleastFold_topIdx (sets : List (List Int)) :
    ∀ (p : IFT × IndexedGate),
    ((sets.foldl (fun (acc : IFT × IndexedGate) s =>
      let f := acc.1.newGateIndex + 1
      let ng := ((⟨f, GateType.andG, 0, [], GState.normal, [], ((0 : Nat), (0 : Nat),
        (0 : Nat))⟩ : IndexedGate).addChildren s).1
      (({ acc.1 with newGateIndex := f }).setGate ng, (acc.2.addChild (Int.ofNat f)).1))
      p).1).topEventIndex = p.1.topEventIndex := by
  induction sets with
  | nil => intro p; rfl
  | cons s rest ih => intro p; rw [List.foldl_cons, ih]; rfl

theorem resolvedAt_normalizeAtleastGate (t : IFT) (idx k : Nat) :
    t.resolvedAt k → (t.normalizeAtleastGate idx).resolvedAt k := by
  intro h
  unfold IFT.normalizeAtleastGate
  split
  · exact h
  · next g hg =>
    refine resolvedAt_setGate _ _ _ ⟨?_, ?_⟩ (atleastFold_resolvedAt _ _ _ h)
    · rw [atleastFold_gtype2]; simp
    · rw [atleastFold_gtype2]; simp

theorem resolvedAt_normalizeGate (t : IFT) (idx k : Nat) :
    t.resolvedAt k → (t.normalizeGate idx).resolvedAt k := by
  intro h
  unfold IFT.normalizeGate
  split
  · exact h
  · split
    · exact resolvedAt_setGate _ _ _ (by simp) h
    · exact resolvedAt_setGate _ _ _ (by simp) h
    · exact resolvedAt_setGate _ _ _ (by simp) h
    · exact resolvedAt_setGate _ _ _ (by simp) h
    · exact resolvedAt_normalizeXorGate _ _ _ h
    · exact resolvedAt_normalizeAtleastGate _ _ _ h
    · exact h

theorem normalizeXorGate_topIdx (t : IFT) (idx : Nat) :
    (t.normalizeXorGate idx).topEventIndex = t.topEventIndex := by
  unfold IFT.normalizeXorGate
  split
  · rfl
  · split
    · rfl
    · rfl

theorem normalizeAtleastGate_topIdx (t : IFT) (idx : Nat) :
    (t.normalizeAtleastGate idx).topEventIndex = t.topEventIndex := by
  unfold IFT.normalizeAtleastGate
  split
  · rfl
  · exact atleastFold_topIdx _ _

theorem normalizeGate_topIdx (t : IFT) (idx : Nat) :
    (t.normalizeGate idx).topEventIndex = t.topEventIndex := by
  unfold IFT.normalizeGate
  split
  · rfl
  · split
    · rfl
    · rfl
    · rfl
    · rfl
    · exact normalizeXorGate_topIdx ..
    · exact normalizeAtleastGate_topIdx ..
    · rfl

theorem notifyParents_gtype (t : IFT) (idx : Nat) (hwf : t.WF) :
    (t.notifyParents idx).WF ∧
    (∀ j, ((t.notifyParents idx).find? j).map IndexedGate.gtype =
      (t.find? j).map IndexedGate.gtype) ∧
    (t.notifyParents idx).topEventIndex = t.topEventIndex := by
  unfold IFT.notifyParents
  split
  · exact ⟨hwf, fun j => rfl, rfl⟩
  · next g hg =>
    split
    · refine foldl_preserves_prop (fun u => u.WF ∧
        (∀ j, (u.find? j).map IndexedGate.gtype = (t.find? j).map IndexedGate.gtype) ∧
        u.topEventIndex = t.topEventIndex) _ ?_ _ _ ⟨hwf, fun j => rfl, rfl⟩
      intro u p hu
      obtain ⟨hu1, hu2, hu3⟩ := hu
      split
      · exact ⟨hu1, hu2, hu3⟩
      · next parent hparent =>
        refine ⟨wf_setGate _ hu1, ?_, hu3⟩
        intro j
        refine (find?_gtype_setGate_same u parent _ j (swapChild_index ..)
          (swapChild_gtype ..) ?_).trans (hu2 j)
        rw [wf_find?_index hu1 hparent]
        exact hparent
    · exact ⟨hwf, fun j => rfl, rfl⟩

theorem gatherParentInfo_props (t : IFT) (fuel : Nat) (hwf : t.WF) :
    (t.gatherParentInfo fuel).WF ∧
    (∀ j, ((t.gatherParentInfo fuel).find? j).map IndexedGate.gtype =
      (t.find? j).map IndexedGate.gtype) ∧
    (t.gatherParentInfo fuel).topEventIndex = t.topEventIndex := by
  unfold IFT.gatherParentInfo
  split
  · exact ⟨hwf, fun j => rfl, rfl⟩
  · exact gatherRun_gtype fuel t t.topEventIndex _ [t.topEventIndex] hwf

theorem normalizeGates_top_shape : ∀ (fuel : Nat) (t u : IFT), t.WF →
    IFT.normalizeGates fuel t = some u →
    ∃ tg, u.find? u.topEventIndex = some tg ∧
      tg.gtype ≠ GateType.notG ∧ tg.gtype ≠ GateType.nullG := by
  intro fuel
  induction fuel with
  | zero => intro t u _ h; exact Option.noConfusion h
  | succ n ih =>
    intro t u hwf h
    rw [IFT.normalizeGates] at h
    revert h
    split
    · intro h; exact Option.noConfusion h
    · next top hfind =>
      split
      · split
        · split
          · intro h; exact Option.noConfusion h
          · intro h
            refine ih _ u ?_ h
            exact wf_eraseGate t.topEventIndex hwf
        · intro h; exact Option.noConfusion h
      · next hnn =>
        intro h
        have hu : u = _ := (Option.some.inj h).symm
        subst hu
        have htopidx : top.index = t.topEventIndex := wf_find?_index hwf hfind
        set t1 := if top.gtype = GateType.norG then
            { t.setGate { top with gtype := GateType.orG } with
              topEventSign := t.topEventSign * -1 }
          else if top.gtype = GateType.orG then t.setGate { top with gtype := GateType.orG }
          else if top.gtype = GateType.nandG then
            { t.setGate { top with gtype := GateType.andG } with
              topEventSign := t.topEventSign * -1 }
          else if top.gtype = GateType.andG then t.setGate { top with gtype := GateType.andG }
          else t with ht1
        have hres1 : t1.resolvedAt t.topEventIndex ∧ t1.WF ∧
            t1.topEventIndex = t.topEventIndex := by
          by_cases h1 : top.gtype = GateType.norG
          · rw [ht1, if_pos h1]
            refine ⟨⟨{ top with gtype := GateType.orG }, ?_, by simp, by simp⟩, ?_, rfl⟩
            · show (t.setGate { top with gtype := GateType.orG }).find? t.topEventIndex = _
              rw [← htopidx]
              exact find?_setGate_self ..
            · exact wf_setGate _ hwf
          · by_cases h2 : top.gtype = GateType.orG
            · rw [ht1, if_neg h1, if_pos h2]
              refine ⟨⟨{ top with gtype := GateType.orG }, ?_, by simp, by simp⟩,
                wf_setGate _ hwf, rfl⟩
              rw [← htopidx]
              exact find?_setGate_self ..
            · by_cases h3 : top.gtype = GateType.nandG
              · rw [ht1, if_neg h1, if_neg h2, if_pos h3]
                refine ⟨⟨{ top with gtype := GateType.andG }, ?_, by simp, by simp⟩, ?_, rfl⟩
                · show (t.setGate { top with gtype := GateType.andG }).find? t.topEventIndex = _
                  rw [← htopidx]
                  exact find?_setGate_self ..
                · exact wf_setGate _ hwf
              · by_cases h4 : top.gtype = GateType.andG
                · rw [ht1, if_neg h1, if_neg h2, if_neg h3, if_pos h4]
                  refine ⟨⟨{ top with gtype := GateType.andG }, ?_, by simp, by simp⟩,
                    wf_setGate _ hwf, rfl⟩
                  rw [← htopidx]
                  exact find?_setGate_self ..
                · rw [ht1, if_neg h1, if_neg h2, if_neg h3, if_neg h4]
                  refine ⟨⟨top, hfind, ?_, ?_⟩, hwf, rfl⟩
                  · intro hc; exact hnn (Or.inl hc)
                  · intro hc; exact hnn (Or.inr hc)
        obtain ⟨hres1a, hwf1, hidx1⟩ := hres1
        obtain ⟨hwf2, hgt2, hidx2⟩ := gatherParentInfo_props t1 n hwf1
        have hres2 : (t1.gatherParentInfo n).resolvedAt t.topEventIndex :=
          resolvedAt_gtype_eq hgt2 hres1a
        have hstepf : ∀ (v : IFT) (k : Nat),
            (v.WF ∧ v.resolvedAt t.topEventIndex ∧ v.topEventIndex = t.topEventIndex) →
            ((fun (acc : IFT) (k : Nat) => if k = acc.topEventIndex then acc else acc.notifyParents k) v k).WF ∧
            ((fun (acc : IFT) (k : Nat) => if k = acc.topEventIndex then acc
              else acc.notifyParents k) v k).resolvedAt t.topEventIndex ∧
            ((fun (acc : IFT) (k : Nat) => if k = acc.topEventIndex then acc
              else acc.notifyParents k) v k).topEventIndex = t.topEventIndex := by
          intro v k hv
          obtain ⟨hv1, hv2, hv3⟩ := hv
          by_cases hk : k = v.topEventIndex
          · simpa [hk] using ⟨hv1, hv2, hv3⟩
          · obtain ⟨w1, w2, w3⟩ := notifyParents_gtype v k hv1
            simp only [hk, if_neg, if_false]
            exact ⟨w1, resolvedAt_gtype_eq w2 hv2, w3.trans hv3⟩
        have hstep3 := foldl_preserves_prop (fun v => v.WF ∧
            v.resolvedAt t.topEventIndex ∧ v.topEventIndex = t.topEventIndex)
          (fun (acc : IFT) (k : Nat) => if k = acc.topEventIndex then acc else acc.notifyParents k) hstepf
          ((t1.gatherParentInfo n).gates.map Prod.fst) (t1.gatherParentInfo n)
          ⟨hwf2, hres2, hidx2.trans hidx1⟩
        obtain ⟨hwf3, hres3, hidx3⟩ := hstep3
        have hstepg : ∀ (v : IFT) (k : Nat),
            (v.resolvedAt t.topEventIndex ∧ v.topEventIndex = t.topEventIndex) →
            ((fun (acc : IFT) (k : Nat) => acc.normalizeGate k) v k).resolvedAt t.topEventIndex ∧
            ((fun (acc : IFT) (k : Nat) => acc.normalizeGate k) v k).topEventIndex = t.topEventIndex := by
          intro v k hv
          exact ⟨resolvedAt_normalizeGate v k _ hv.1, (normalizeGate_topIdx v k).trans hv.2⟩
        have hstep4 := foldl_preserves_prop (fun v => v.resolvedAt t.topEventIndex ∧
            v.topEventIndex = t.topEventIndex)
          (fun (acc : IFT) (k : Nat) => acc.normalizeGate k) hstepg
          ((((t1.gatherParentInfo n).gates.map Prod.fst).foldl
            (fun (acc : IFT) (k : Nat) => if k = acc.topEventIndex then acc
              else acc.notifyParents k) (t1.gatherParentInfo n)).gates.map Prod.fst)
          (((t1.gatherParentInfo n).gates.map Prod.fst).foldl
            (fun (acc : IFT) (k : Nat) => if k = acc.topEventIndex then acc
              else acc.notifyParents k) (t1.gatherParentInfo n)) ⟨hres3, hidx3⟩
        obtain ⟨⟨tg, htg1, htg2, htg3⟩, hidx4⟩ := hstep4
        exact ⟨tg, hidx4 ▸ htg1, htg2, htg3⟩

/-- C7, counterexample.  On `treeD` — a valid graph whose top event is a
NULL gate with the single negated child literal `-6` — normalization
does not record the child's negation: the resulting top sign is +1 and
the computed Boolean function changes (false to true under the all-true
assignment), because `NormalizeGates` takes the magnitude of the child
and multiplies the sign only by the NOT/NULL factor (the source asserts
`child_index > 0`), so the claim as stated fails for a negated single
child. -/
theorem c7_negated_child_drops_sign :
    (IFT.normalizeGates 50 treeD).map IFT.topEventSign = some 1 ∧
    treeD.evalTop envTrue 50 = some false ∧
    (IFT.normalizeGates 50 treeD).bind (fun u => u.evalTop envTrue 50) = some true :=
  ⟨rfl, rfl, rfl⟩

/-- C7, amended.  If the top event is a NOT or NULL gate whose single
child is a positive reference to a gate present in the map, then
normalization replaces the top event with that child, multiplying the
top sign by -1 for NOT (no flip for NULL), and recurses; and on any
successful normalization of a well-formed graph the final top gate is
neither NOT nor NULL, so chains such as NOT over NOT are eliminated.
(A negated single child is not supported by the code: it asserts the
child is positive and would otherwise drop the negation.) -/
theorem c7_top_unwrap_amended :
    (∀ (fuel : Nat) (t : IFT) (top g2 : IndexedGate) (c : Int),
      t.find? t.topEventIndex = some top →
      (top.gtype = GateType.notG ∨ top.gtype = GateType.nullG) →
      top.children = [c] → 0 < c → t.find? c.natAbs = some g2 →
      IFT.normalizeGates (fuel + 1) t = IFT.normalizeGates fuel
        { t.eraseGate t.topEventIndex with
          topEventIndex := c.natAbs,
          topEventSign := t.topEventSign *
            (if top.gtype = GateType.notG then -1 else 1) }) ∧
    (∀ (fuel : Nat) (t u : IFT), t.WF → IFT.normalizeGates fuel t = some u →
      ∃ tg, u.find? u.topEventIndex = some tg ∧
        tg.gtype ≠ GateType.notG ∧ tg.gtype ≠ GateType.nullG) := by
  constructor
  · intro fuel t top g2 c hfind htype hch hpos hg2
    simp only [IFT.normalizeGates, hfind, if_pos htype, hch, hg2]
  · exact fun fuel t u hwf h => normalizeGates_top_shape fuel t u hwf h

theorem c7_top_unwrap_amended_witness :
    (treeG.find? treeG.topEventIndex =
        some ⟨5, GateType.nullG, 0, [6], GState.normal, [], (0, 0, 0)⟩ ∧
      (⟨5, GateType.nullG, 0, [6], GState.normal, [], ((0 : Nat), (0 : Nat),
        (0 : Nat))⟩ : IndexedGate).children = [6] ∧
      (0 : Int) < 6 ∧
      IFT.normalizeGates 6 treeG = IFT.normalizeGates 5
        { treeG.eraseGate treeG.topEventIndex with
          topEventIndex := (6 : Int).natAbs,
          topEventSign := treeG.topEventSign *
            (if (⟨5, GateType.nullG, 0, [6], GState.normal, [], ((0 : Nat), (0 : Nat),
              (0 : Nat))⟩ : IndexedGate).gtype = GateType.notG then -1 else 1) }) ∧
    (treeG.WF ∧
      IFT.normalizeGates 5 treeG = some ((IFT.normalizeGates 5 treeG).getD treeG) ∧
      ∃ tg, ((IFT.normalizeGates 5 treeG).getD treeG).find?
          ((IFT.normalizeGates 5 treeG).getD treeG).topEventIndex = some tg ∧
        tg.gtype ≠ GateType.notG ∧ tg.gtype ≠ GateType.nullG) := by
  refine ⟨⟨rfl, rfl, by decide, ?_⟩, ?_, rfl, ?_⟩
  · exact c7_top_unwrap_amended.1 5 treeG _ _ 6 rfl (Or.inr rfl) rfl (by decide) rfl
  · show ∀ p ∈ treeG.gates, p.2.index = p.1
    decide
  · exact c7_top_unwrap_amended.2 5 treeG _
      (show ∀ p ∈ treeG.gates, p.2.index = p.1 by decide) rfl

/-! ### List-level lemmas for the child-set operations -/

theorem insertSorted_sorted {x : Int} : ∀ {l : List Int},
    l.Pairwise (· < ·) → (insertSorted x l).Pairwise (· < ·) := by
  intro l
  induction l with
  | nil => intro _; simp [insertSorted]
  | cons y ys ih =>
    intro hs
    by_cases h1 : x < y
    · rw [show insertSorted x (y :: ys) = x :: y :: ys by simp [insertSorted, h1]]
      refine List.Pairwise.cons ?_ hs
      intro b hb
      rcases List.mem_cons.mp hb with rfl | hb
      · exact h1
      · exact h1.trans (List.rel_of_pairwise_cons hs hb)
    · by_cases h2 : x = y
      · rw [show insertSorted x (y :: ys) = y :: ys by simp [insertSorted, h1, h2]]
        exact hs
      · rw [show insertSorted x (y :: ys) = y :: insertSorted x ys by
          simp [insertSorted, h1, h2]]
        refine List.Pairwise.cons ?_ (ih (List.Pairwise.of_cons hs))
        intro b hb
        rcases mem_insertSorted.mp hb with rfl | hb
        · rcases lt_trichotomy b y with h | h | h
          · exact absurd h h1
          · exact absurd h h2
          · exact h
        · exact List.rel_of_pairwise_cons hs hb

theorem length_insertSorted_of_not_mem {x : Int} : ∀ {l : List Int}, x ∉ l →
    (insertSorted x l).length = l.length + 1 := by
  intro l
  induction l with
  | nil => intro _; rfl
  | cons y ys ih =>
    intro hx
    by_cases h1 : x < y
    · simp [insertSorted, h1]
    · by_cases h2 : x = y
      · exact absurd (h2 ▸ List.mem_cons_self y ys) hx
      · rw [show insertSorted x (y :: ys) = y :: insertSorted x ys by
          simp [insertSorted, h1, h2]]
        simp only [List.length_cons]
        rw [ih (fun hm => hx (List.mem_cons_of_mem _ hm))]

theorem insertSorted_of_mem {x : Int} : ∀ {l : List Int}, l.Pairwise (· < ·) → x ∈ l →
    insertSorted x l = l := by
  intro l
  induction l with
  | nil => intro _ h; cases h
  | cons y ys ih =>
    intro hs hx
    rcases List.mem_cons.mp hx with rfl | hx
    · simp [insertSorted]
    · have hyx : y < x := List.rel_of_pairwise_cons hs hx
      by_cases h1 : x < y
      · exact absurd h1 (not_lt.mpr hyx.le)
      · by_cases h2 : x = y
        · exact absurd (h2 ▸ hyx) (lt_irrefl x)
        · rw [show insertSorted x (y :: ys) = y :: insertSorted x ys by
            simp [insertSorted, h1, h2]]
          rw [ih (List.Pairwise.of_cons hs) hx]

theorem sorted_nodup {l : List Int} (h : l.Pairwise (· < ·)) : l.Nodup :=
  h.imp (fun hlt => ne_of_lt hlt)

/-! ### Additional map lemmas -/

theorem find?_mem {t : IFT} {j : Nat} {g : IndexedGate} (h : t.find? j = some g) :
    ∃ p ∈ t.gates, p.1 = j ∧ p.2 = g := by
  unfold IFT.find? at h
  cases he : t.gates.find? (fun p => p.1 = j) with
  | none => rw [he] at h; exact Option.noConfusion h
  | some p =>
    rw [he] at h
    refine ⟨p, List.mem_of_find?_eq_some he, by simpa using List.find?_some he, ?_⟩
    cases h
    rfl

theorem find?_none_of_gt_bound {t : IFT} (hb : t.keysBounded) {i : Nat}
    (hi : t.newGateIndex < i) : t.find? i = none := by
  cases he : t.find? i with
  | none => rfl
  | some g =>
    obtain ⟨p, hp, hp1, _⟩ := find?_mem he
    exact absurd (hp1 ▸ hb p hp) (by omega)

theorem find?_eraseGate_self (t : IFT) (i : Nat) : (t.eraseGate i).find? i = none := by
  unfold IFT.eraseGate IFT.find?
  simp only
  cases he : (t.gates.filter (fun p => p.1 ≠ i)).find? (fun p => p.1 = i) with
  | none => rfl
  | some p =>
    have h1 : p.1 = i := by simpa using List.find?_some he
    have h2 : p ∈ t.gates.filter (fun q => q.1 ≠ i) := List.mem_of_find?_eq_some he
    have h3 : p.1 ≠ i := by simpa using (List.mem_filter.mp h2).2
    exact absurd h1 h3

theorem find?_eraseGate_ne (t : IFT) (i j : Nat) (h : j ≠ i) :
    (t.eraseGate i).find? j = t.find? j := by
  unfold IFT.eraseGate IFT.find?
  simp only
  congr 1
  induction t.gates with
  | nil => rfl
  | cons p rest ih =>
    by_cases hp : p.1 = i
    · rw [show (p :: rest).filter (fun q => q.1 ≠ i) = rest.filter (fun q => q.1 ≠ i) by
        simp [List.filter, hp]]
      rw [ih]
      rw [List.find?_cons_of_neg _ (by simp [hp, Ne.symm h])]
    · rw [show (p :: rest).filter (fun q => q.1 ≠ i) = p :: rest.filter (fun q => q.1 ≠ i) by
        simp [List.filter, hp]]
      by_cases hj : p.1 = j
      · rw [List.find?_cons_of_pos _ (by simpa using hj),
          List.find?_cons_of_pos _ (by simpa using hj)]
      · rw [List.find?_cons_of_neg _ (by simpa using hj),
          List.find?_cons_of_neg _ (by simpa using hj)]
        exact ih

theorem keysBounded_setGate {t : IFT} (g : IndexedGate) (hb : t.keysBounded)
    (hg : g.index ≤ t.newGateIndex) : (t.setGate g).keysBounded := by
  intro p hp
  rcases mem_insertGateList hp with rfl | hp2
  · exact hg
  · exact hb p hp2

theorem keysBounded_raise {t : IFT} (hb : t.keysBounded) {n : Nat}
    (hn : t.newGateIndex ≤ n) : IFT.keysBounded { t with newGateIndex := n } := by
  intro p hp
  exact le_trans (hb p hp) hn

theorem addChild_no_collision (g : IndexedGate) (c : Int) (h : -c ∉ g.children) :
    g.addChild c = ({ g with children := insertSorted c g.children }, true) := by
  unfold IndexedGate.addChild
  rw [if_neg (by simpa using h)]

theorem swapChild_shape (g : IndexedGate) (k : Nat) (hk : 0 < k)
    (hs : g.children.Pairwise (· < ·))
    (hnc : ∀ x ∈ g.children, -x ∉ g.children)
    (hin : (Int.ofNat k) ∈ g.children ∨ -(Int.ofNat k) ∈ g.children) :
    (g.swapChild (Int.ofNat k) (-(Int.ofNat k))).1.children.length = g.children.length ∧
    (g.swapChild (Int.ofNat k) (-(Int.ofNat k))).1.children.Pairwise (· < ·) ∧
    (∀ x ∈ (g.swapChild (Int.ofNat k) (-(Int.ofNat k))).1.children,
      -x ∉ (g.swapChild (Int.ofNat k) (-(Int.ofNat k))).1.children) ∧
    (∀ j : Nat, (∃ c ∈ g.children, c.natAbs = j) →
      ∃ c ∈ (g.swapChild (Int.ofNat k) (-(Int.ofNat k))).1.children, c.natAbs = j) ∧
    (g.swapChild (Int.ofNat k) (-(Int.ofNat k))).1.gtype = g.gtype ∧
    (g.swapChild (Int.ofNat k) (-(Int.ofNat k))).1.index = g.index ∧
    (g.swapChild (Int.ofNat k) (-(Int.ofNat k))).1.parents = g.parents ∧
    (g.swapChild (Int.ofNat k) (-(Int.ofNat k))).1.gstate = g.gstate := by
  have hnd : g.children.Nodup := sorted_nodup hs
  by_cases hmem : (Int.ofNat k) ∈ g.children
  · have hneg : -(Int.ofNat k) ∉ g.children := by
      simpa using hnc _ hmem
    have herase : (Int.ofNat k) ∉ g.children.erase (Int.ofNat k) := by
      intro hx
      exact absurd rfl (hnd.mem_erase_iff.mp hx).1
    have hstep := addChild_no_collision
      { g with children := g.children.erase (Int.ofNat k) } (-(Int.ofNat k))
      (by simpa using herase)
    have hswap : g.swapChild (Int.ofNat k) (-(Int.ofNat k)) =
        IndexedGate.addChild { g with children := g.children.erase (Int.ofNat k) }
          (-(Int.ofNat k)) := rfl
    rw [hswap, hstep]
    simp only
    have hsor : (g.children.erase (Int.ofNat k)).Pairwise (· < ·) :=
      hs.sublist (g.children.erase_sublist (Int.ofNat k))
    have hnegnotin : -(Int.ofNat k) ∉ g.children.erase (Int.ofNat k) := by
      intro hx
      exact hneg ((List.erase_sublist ..).mem hx)
    refine ⟨?_, insertSorted_sorted hsor, ?_, ?_, trivial, trivial, trivial, trivial⟩
    · rw [length_insertSorted_of_not_mem hnegnotin,
        List.length_erase_of_mem hmem]
      have : 1 ≤ g.children.length := List.length_pos.mpr
        (fun hnil => by rw [hnil] at hmem; cases hmem)
      omega
    · intro x hx hnx
      rcases mem_insertSorted.mp hx with rfl | hx2
      · rcases mem_insertSorted.mp hnx with h | h
        · simp only [Int.ofNat_eq_natCast] at h ⊢
          omega
        · rw [neg_neg] at h
          exact herase h
      · have hxc : x ∈ g.children := (List.erase_sublist ..).mem hx2
        rcases mem_insertSorted.mp hnx with h | h
        · rw [show x = Int.ofNat k from by
            simp only [Int.ofNat_eq_natCast] at h ⊢
            omega] at hx2
          exact herase hx2
        · exact hnc _ hxc ((List.erase_sublist ..).mem h)
    · intro j hj
      obtain ⟨c, hc, hcj⟩ := hj
      by_cases hck : c = Int.ofNat k
      · refine ⟨-(Int.ofNat k), mem_insertSorted.mpr (Or.inl rfl), ?_⟩
        subst hck
        simpa using hcj
      · exact ⟨c, mem_insertSorted.mpr (Or.inr (hnd.mem_erase_iff.mpr ⟨hck, hc⟩)), hcj⟩
  · have hneg : -(Int.ofNat k) ∈ g.children := by
      rcases hin with h | h
      · exact absurd h hmem
      · exact h
    have herase : g.children.erase (Int.ofNat k) = g.children :=
      List.erase_of_not_mem hmem
    have hstep := addChild_no_collision
      { g with children := g.children.erase (Int.ofNat k) } (-(Int.ofNat k))
      (by
        show -(-(Int.ofNat k)) ∉ g.children.erase (Int.ofNat k)
        rw [neg_neg, herase]
        exact hmem)
    have hswap : g.swapChild (Int.ofNat k) (-(Int.ofNat k)) =
        IndexedGate.addChild { g with children := g.children.erase (Int.ofNat k) }
          (-(Int.ofNat k)) := rfl
    rw [hswap, hstep]
    simp only [herase]
    rw [show insertSorted (-(Int.ofNat k)) g.children = g.children from
      insertSorted_of_mem hs hneg]
    exact ⟨rfl, hs, hnc, fun j hj => hj, trivial, trivial, trivial, trivial⟩

theorem mem_insertSortedNat {x a : Nat} : ∀ {l : List Nat},
    a ∈ insertSortedNat x l ↔ a = x ∨ a ∈ l := by
  intro l
  induction l with
  | nil => simp [insertSortedNat]
  | cons y ys ih =>
    by_cases h1 : x < y
    · simp only [insertSortedNat, if_pos h1, List.mem_cons]
    · by_cases h2 : x = y
      · subst h2
        rw [show insertSortedNat x (x :: ys) = x :: ys by simp [insertSortedNat, h1]]
        simp only [List.mem_cons]
        tauto
      · simp only [insertSortedNat, if_neg h1, if_neg h2, List.mem_cons, ih]
        tauto

theorem find?_map_setGate_same {β : Type} (f : IndexedGate → β) (t : IFT)
    (g g2 : IndexedGate) (j : Nat) (hidx : g2.index = g.index) (hf2 : f g2 = f g)
    (hfind : t.find? g.index = some g) :
    ((t.setGate g2).find? j).map f = (t.find? j).map f := by
  by_cases hj : j = g2.index
  · subst hj
    rw [find?_setGate_self, hidx, hfind]
    simpa using hf2
  · rw [find?_setGate_ne _ _ _ hj]

theorem children_transfer {t u : IFT} {idx : Nat} (P : List Int → Prop)
    (h : ∀ j, (u.find? j).map (fun g => (g.gtype, g.children, g.gstate)) =
      (t.find? j).map (fun g => (g.gtype, g.children, g.gstate)))
    (hex : ∃ gi, t.find? idx = some gi ∧ P gi.children) :
    ∃ gi2, u.find? idx = some gi2 ∧ P gi2.children := by
  obtain ⟨gi, hgi, hP⟩ := hex
  have h2 := h idx
  rw [hgi] at h2
  cases hu : u.find? idx with
  | none => rw [hu] at h2; exact Option.noConfusion h2
  | some gi2 =>
    rw [hu] at h2
    have h3 := Option.some.inj h2
    have hch : gi2.children = gi.children := by
      have := congrArg (fun q => q.2.1) h3
      simpa using this
    exact ⟨gi2, rfl, hch ▸ hP⟩

theorem parentsAcc_setGate_addParent (t : IFT) (child : IndexedGate) (idx : Nat)
    (hwf : t.WF) (hacc : t.parentsAcc)
    (hfind : t.find? child.index = some child)
    (hc : ∃ gi, t.find? idx = some gi ∧ ∃ c, c ∈ gi.children ∧ c.natAbs = child.index) :
    (t.setGate (child.addParent idx)).parentsAcc := by
  intro j g p hj hp
  have hmap : ∀ j2, ((t.setGate (child.addParent idx)).find? j2).map
      (fun g => (g.gtype, g.children, g.gstate)) =
      (t.find? j2).map (fun g => (g.gtype, g.children, g.gstate)) :=
    fun j2 => find?_map_setGate_same _ t child (child.addParent idx) j2 rfl rfl hfind
  by_cases hjc : j = child.index
  · subst hjc
    have h0 : (t.setGate (child.addParent idx)).find? child.index =
        some (child.addParent idx) := find?_setGate_self t (child.addParent idx)
    rw [h0] at hj
    have hg : g = child.addParent idx := (Option.some.inj hj).symm
    subst hg
    rcases mem_insertSortedNat.mp hp with rfl | hp2
    · obtain ⟨gi, hgi, c, hcmem, hcabs⟩ := hc
      obtain ⟨gi2, hgi2, hp2⟩ := children_transfer (fun ch => ∃ c, c ∈ ch ∧
        c.natAbs = child.index) hmap ⟨gi, hgi, c, hcmem, hcabs⟩
      exact ⟨gi2, hgi2, hp2⟩
    · obtain ⟨pg, hpg, c, hcmem, hcabs⟩ := hacc child.index child p hfind hp2
      obtain ⟨pg2, hpg2, hpp⟩ := children_transfer (fun ch => ∃ c, c ∈ ch ∧
        c.natAbs = child.index) hmap ⟨pg, hpg, c, hcmem, hcabs⟩
      exact ⟨pg2, hpg2, hpp⟩
  · rw [find?_setGate_ne t (child.addParent idx) j (by exact hjc)] at hj
    obtain ⟨pg, hpg, c, hcmem, hcabs⟩ := hacc j g p hj hp
    obtain ⟨pg2, hpg2, hpp⟩ := children_transfer (fun ch => ∃ c, c ∈ ch ∧
      c.natAbs = j) hmap ⟨pg, hpg, c, hcmem, hcabs⟩
    exact ⟨pg2, hpg2, hpp⟩

theorem gatherRun_acc : ∀ (fuel : Nat) (t : IFT) (idx : Nat) (cs : List Int) (pr : List Nat),
    t.WF → t.parentsAcc →
    (∃ gi, t.find? idx = some gi ∧ ∀ x ∈ cs, x ∈ gi.children) →
    (IFT.gatherRun fuel t idx cs pr).1.WF ∧
    (IFT.gatherRun fuel t idx cs pr).1.parentsAcc ∧
    (∀ j, ((IFT.gatherRun fuel t idx cs pr).1.find? j).map
        (fun g => (g.gtype, g.children, g.gstate)) =
      (t.find? j).map (fun g => (g.gtype, g.children, g.gstate))) := by
  intro fuel
  induction fuel with
  | zero => intro t idx cs pr hwf hacc _; exact ⟨hwf, hacc, fun j => rfl⟩
  | succ n ih =>
    intro t idx cs pr hwf hacc hc
    cases cs with
    | nil => exact ⟨hwf, hacc, fun j => rfl⟩
    | cons c rest =>
      have hcrest : ∃ gi, t.find? idx = some gi ∧ ∀ x ∈ rest, x ∈ gi.children := by
        obtain ⟨gi, hgi, hsub⟩ := hc
        exact ⟨gi, hgi, fun x hx => hsub x (List.mem_cons_of_mem _ hx)⟩
      simp only [IFT.gatherRun]
      split
      · exact ih t idx rest pr hwf hacc hcrest
      · split
        · exact ih t idx rest pr hwf hacc hcrest
        · next child hchild =>
          have hidx : child.index = c.natAbs := wf_find?_index hwf hchild
          have hwf2 := wf_setGate (child.addParent idx) hwf
          have hmap2 : ∀ j, ((t.setGate (child.addParent idx)).find? j).map
              (fun g => (g.gtype, g.children, g.gstate)) =
              (t.find? j).map (fun g => (g.gtype, g.children, g.gstate)) :=
            fun j => find?_map_setGate_same _ t child (child.addParent idx) j rfl rfl
              (hidx ▸ hchild)
          have hacc2 : (t.setGate (child.addParent idx)).parentsAcc := by
            refine parentsAcc_setGate_addParent t child idx hwf hacc (hidx ▸ hchild) ?_
            obtain ⟨gi, hgi, hsub⟩ := hc
            exact ⟨gi, hgi, c, hsub c (List.mem_cons_self c rest), hidx ▸ rfl⟩
          have hcrest2 := children_transfer (fun ch => ∀ x ∈ rest, x ∈ ch) hmap2 hcrest
          split
          · obtain ⟨w1, w2, w3⟩ := ih (t.setGate (child.addParent idx)) idx rest pr
              hwf2 hacc2 hcrest2
            exact ⟨w1, w2, fun j => (w3 j).trans (hmap2 j)⟩
          · split
            · obtain ⟨w1, w2, w3⟩ := ih (t.setGate (child.addParent idx)) idx rest pr
                hwf2 hacc2 hcrest2
              exact ⟨w1, w2, fun j => (w3 j).trans (hmap2 j)⟩
            · next child2 hchild2 =>
              obtain ⟨v1, v2, v3⟩ := ih (t.setGate (child.addParent idx)) c.natAbs
                child2.children (c.natAbs :: pr) hwf2 hacc2
                ⟨child2, hchild2, fun x hx => hx⟩
              obtain ⟨w1, w2, w3⟩ := ih _ idx rest _ v1 v2
                (children_transfer (fun ch => ∀ x ∈ rest, x ∈ ch) v3 hcrest2)
              exact ⟨w1, w2, fun j => ((w3 j).trans (v3 j)).trans (hmap2 j)⟩

theorem addChild_parents (g : IndexedGate) (c : Int) :
    (g.addChild c).1.parents = g.parents := by
  unfold IndexedGate.addChild
  split <;> rfl

theorem swapChild_parents (g : IndexedGate) (a b : Int) :
    (g.swapChild a b).1.parents = g.parents := by
  unfold IndexedGate.swapChild
  exact addChild_parents ..

theorem addChildren_gtype : ∀ (s : List Int) (g : IndexedGate),
    (g.addChildren s).1.gtype = g.gtype := by
  intro s
  induction s with
  | nil => intro g; rfl
  | cons c rest ih =>
    intro g
    simp only [IndexedGate.addChildren]
    split
    · exact (ih _).trans (addChild_gtype g c)
    · exact addChild_gtype g c

theorem addChildren_index : ∀ (s : List Int) (g : IndexedGate),
    (g.addChildren s).1.index = g.index := by
  intro s
  induction s with
  | nil => intro g; rfl
  | cons c rest ih =>
    intro g
    simp only [IndexedGate.addChildren]
    split
    · exact (ih _).trans (addChild_index g c)
    · exact addChild_index g c

theorem find?_isSome_of_mem {t : IFT} {p : Nat × IndexedGate} (hp : p ∈ t.gates) :
    ∃ g, t.find? p.1 = some g := by
  unfold IFT.find?
  cases he : t.gates.find? (fun q => q.1 = p.1) with
  | none =>
    have := List.find?_eq_none.mp he p hp
    simp at this
  | some q => exact ⟨q.2, rfl⟩

theorem keysBounded_of_dom {t u : IFT} (hb : t.keysBounded)
    (hn : u.newGateIndex = t.newGateIndex)
    (hdom : ∀ j, u.find? j ≠ none → t.find? j ≠ none) : u.keysBounded := by
  intro p hp
  obtain ⟨g, hg⟩ := find?_isSome_of_mem hp
  have h2 : t.find? p.1 ≠ none := hdom p.1 (by rw [hg]; exact fun h => Option.noConfusion h)
  cases ht : t.find? p.1 with
  | none => exact absurd ht h2
  | some g2 =>
    obtain ⟨q, hq, hq1, _⟩ := find?_mem ht
    rw [hn]
    exact hq1 ▸ hb q hq

theorem dom_of_shapeMap {t u : IFT}
    (h : ∀ j, (u.find? j).map (fun g => (g.gtype, g.children, g.gstate)) =
      (t.find? j).map (fun g => (g.gtype, g.children, g.gstate))) :
    ∀ j, u.find? j ≠ none → t.find? j ≠ none := by
  intro j hu ht
  have h2 := h j
  rw [ht] at h2
  cases he : u.find? j with
  | none => exact hu he
  | some g => rw [he] at h2; exact Option.noConfusion h2

theorem goodChildren_of_shapeMap {t u : IFT}
    (h : ∀ j, (u.find? j).map (fun g => (g.gtype, g.children, g.gstate)) =
      (t.find? j).map (fun g => (g.gtype, g.children, g.gstate)))
    (hg : t.goodChildren) : u.goodChildren := by
  intro j g hj
  have h2 := h j
  rw [hj] at h2
  cases ht : t.find? j with
  | none => rw [ht] at h2; exact Option.noConfusion h2
  | some g2 =>
    rw [ht] at h2
    have h3 := Option.some.inj h2
    have hch : g.children = g2.children := by
      have := congrArg (fun q => q.2.1) h3
      simpa using this
    rw [hch]
    exact hg j g2 ht

theorem xorBinary_of_shapeMap {t u : IFT}
    (h : ∀ j, (u.find? j).map (fun g => (g.gtype, g.children, g.gstate)) =
      (t.find? j).map (fun g => (g.gtype, g.children, g.gstate)))
    (hx : t.xorBinary) : u.xorBinary := by
  intro j g hj hxg
  have h2 := h j
  rw [hj] at h2
  cases ht : t.find? j with
  | none => rw [ht] at h2; exact Option.noConfusion h2
  | some g2 =>
    rw [ht] at h2
    have h3 := Option.some.inj h2
    have hch : g.children = g2.children := by
      have := congrArg (fun q => q.2.1) h3
      simpa using this
    have hgt : g.gtype = g2.gtype := by
      have := congrArg (fun q => q.1) h3
      simpa using this
    rw [hch]
    exact hx j g2 ht (hgt ▸ hxg)

theorem gatherRun_frame : ∀ (fuel : Nat) (t : IFT) (idx : Nat) (cs : List Int) (pr : List Nat),
    (IFT.gatherRun fuel t idx cs pr).1.newGateIndex = t.newGateIndex := by
  intro fuel
  induction fuel with
  | zero => intro t idx cs pr; rfl
  | succ n ih =>
    intro t idx cs pr
    cases cs with
    | nil => rfl
    | cons c rest =>
      simp only [IFT.gatherRun]
      split
      · exact ih t idx rest pr
      · split
        · exact ih t idx rest pr
        · split
          · exact ih _ idx rest pr
          · split
            · exact ih _ idx rest pr
            · exact (ih _ idx rest _).trans (ih _ _ _ _)

theorem parentsAcc_of_empty {t : IFT} (hpe : t.parentsEmpty) : t.parentsAcc := by
  intro j g p hj hp
  obtain ⟨q, hq, hq1, hq2⟩ := find?_mem hj
  have hqp := hpe q hq
  rw [hq2] at hqp
  rw [hqp] at hp
  cases hp

theorem eraseGate_props (t : IFT) (i : Nat)
    (hwf : t.WF) (hb : t.keysBounded) (hgood : t.goodChildren) (hxb : t.xorBinary)
    (hpe : t.parentsEmpty) :
    (t.eraseGate i).WF ∧ (t.eraseGate i).keysBounded ∧ (t.eraseGate i).goodChildren ∧
    (t.eraseGate i).xorBinary ∧ (t.eraseGate i).parentsEmpty := by
  have hmem : ∀ p ∈ (t.eraseGate i).gates, p ∈ t.gates := by
    intro p hp
    exact (List.mem_filter.mp hp).1
  refine ⟨fun p hp => hwf p (hmem p hp), fun p hp => hb p (hmem p hp), ?_, ?_,
    fun p hp => hpe p (hmem p hp)⟩
  · intro j g hj
    by_cases hji : j = i
    · subst hji; rw [find?_eraseGate_self] at hj; exact Option.noConfusion hj
    · rw [find?_eraseGate_ne t i j hji] at hj
      exact hgood j g hj
  · intro j g hj hx
    by_cases hji : j = i
    · subst hji; rw [find?_eraseGate_self] at hj; exact Option.noConfusion hj
    · rw [find?_eraseGate_ne t i j hji] at hj
      exact hxb j g hj hx

theorem normShape_setGate_swap (t : IFT) (p idx : Nat) (parent np : IndexedGate)
    (hnp : np = (parent.swapChild (Int.ofNat idx) (-(Int.ofNat idx))).1)
    (h : t.normShape) (hfind : t.find? p = some parent)
    (href : ∃ c ∈ parent.children, c.natAbs = idx) :
    (t.setGate np).normShape := by
  obtain ⟨hwf, hb, hgood, hxb, hacc⟩ := h
  obtain ⟨c, hc, hcabs⟩ := href
  have hgp := hgood p parent hfind
  have hin : (Int.ofNat idx) ∈ parent.children ∨ -(Int.ofNat idx) ∈ parent.children := by
    simp only [Int.ofNat_eq_natCast]
    rcases Int.natAbs_eq c with h1 | h1
    · left; rw [← hcabs, ← h1]; exact hc
    · right; rw [← hcabs, ← h1]; exact hc
  have hk : 0 < idx := by
    rcases Nat.eq_zero_or_pos idx with h0 | h0
    · exfalso
      have hc0 : c = 0 := Int.natAbs_eq_zero.mp (h0 ▸ hcabs)
      subst hc0
      exact (hgp.2 0 hc) (by simpa using hc)
    · exact h0
  have hshape := swapChild_shape parent idx hk hgp.1 hgp.2 hin
  rw [← hnp] at hshape
  obtain ⟨hlen, hsort, hnc, htrans, hgty, hidx2, hpar, hgst⟩ := hshape
  have hpidx : parent.index = p := wf_find?_index hwf hfind
  have hnpidx : np.index = p := hidx2.trans hpidx
  have hself : (t.setGate np).find? np.index = some np := find?_setGate_self ..
  rw [hnpidx] at hself
  refine ⟨wf_setGate _ hwf, ?_, ?_, ?_, ?_⟩
  · refine keysBounded_setGate _ hb ?_
    rw [hnpidx]
    obtain ⟨q, hq, hq1, _⟩ := find?_mem hfind
    exact hq1 ▸ hb q hq
  · intro j g2 hj
    rcases find?_setGate_cases t np j with hcs | hcs
    · rw [hj] at hcs
      cases Option.some.inj hcs
      exact ⟨hsort, hnc⟩
    · rw [hcs] at hj
      exact hgood j g2 hj
  · intro j g2 hj hx
    rcases find?_setGate_cases t np j with hcs | hcs
    · rw [hj] at hcs
      cases Option.some.inj hcs
      have hpx : parent.gtype = GateType.xorG := hgty ▸ hx
      obtain ⟨a, b, hab⟩ := hxb p parent hfind hpx
      have hl2 : np.children.length = 2 := by
        rw [hlen, hab]
        rfl
      rcases List.length_eq_two.mp hl2 with ⟨a2, b2, hab2⟩
      exact ⟨a2, b2, hab2⟩
    · rw [hcs] at hj
      exact hxb j g2 hj hx
  · intro j g2 q hj hq
    rcases find?_setGate_cases t np j with hcs | hcs
    · rw [hj] at hcs
      cases Option.some.inj hcs
      have hj2 : j = p := (wf_find?_index (wf_setGate _ hwf) hj).symm.trans hnpidx
      rw [hpar] at hq
      obtain ⟨pg, hpg, c2, hc2, hc2abs⟩ := hacc p parent q hfind hq
      by_cases hqp : q = p
      · have hpg2 : t.find? p = some pg := hqp ▸ hpg
        have hpge : parent = pg := Option.some.inj (hfind.symm.trans hpg2)
        rw [hqp]
        refine ⟨np, hself, ?_⟩
        obtain ⟨c3, hc3, hc3abs⟩ := htrans p ⟨c2, hpge ▸ hc2, hc2abs⟩
        exact ⟨c3, hc3, hj2 ▸ hc3abs⟩
      · refine ⟨pg, ?_, c2, hc2, hj2 ▸ hc2abs⟩
        rw [find?_setGate_ne t np q (by rw [hnpidx]; exact hqp)]
        exact hpg
    · rw [hcs] at hj
      obtain ⟨pg, hpg, c2, hc2, hc2abs⟩ := hacc j g2 q hj hq
      by_cases hqp : q = p
      · have hpg2 : t.find? p = some pg := hqp ▸ hpg
        have hpge : parent = pg := Option.some.inj (hfind.symm.trans hpg2)
        rw [hqp]
        refine ⟨np, hself, ?_⟩
        exact htrans j ⟨c2, hpge ▸ hc2, hc2abs⟩
      · refine ⟨pg, ?_, c2, hc2, hc2abs⟩
        rw [find?_setGate_ne t np q (by rw [hnpidx]; exact hqp)]
        exact hpg

theorem notifyFold_normShape (idx : Nat) (gpar : List Nat) :
    ∀ (l : List Nat), (∀ q ∈ l, q ∈ gpar) → ∀ (acc : IFT),
    acc.normShape →
    (∃ gi, acc.find? idx = some gi ∧ ∀ q ∈ gpar, q ∈ gi.parents) →
    (l.foldl (fun acc p =>
      match acc.find? p with
      | none => acc
      | some parent =>
        acc.setGate (parent.swapChild (Int.ofNat idx) (-(Int.ofNat idx))).1) acc).normShape := by
  intro l
  induction l with
  | nil => intro _ acc hacc _; exact hacc
  | cons p rest ihl =>
    intro hl acc hacc hgi
    rw [List.foldl_cons]
    cases hfp : acc.find? p with
    | none =>
      exact ihl (fun q hq => hl q (List.mem_cons_of_mem _ hq)) acc hacc hgi
    | some parent =>
      obtain ⟨gi, hgifind, hgipar⟩ := hgi
      have hp_in : p ∈ gpar := hl p (List.mem_cons_self ..)
      have hp_gi : p ∈ gi.parents := hgipar p hp_in
      obtain ⟨pg, hpg, href⟩ := hacc.2.2.2.2 idx gi p hgifind hp_gi
      have hpgeq : pg = parent := Option.some.inj (hpg.symm.trans hfp)
      subst hpgeq
      have hns := normShape_setGate_swap acc p idx pg _ rfl hacc hfp href
      refine ihl (fun q hq => hl q (List.mem_cons_of_mem _ hq)) _ hns ?_
      have hpidx : pg.index = p := wf_find?_index hacc.1 hfp
      have hnpidx : (pg.swapChild (Int.ofNat idx) (-(Int.ofNat idx))).1.index = p := by
        rw [swapChild_index]; exact hpidx
      by_cases hidxp : idx = p
      · have hgieq : gi = pg := Option.some.inj (hgifind.symm.trans (hidxp ▸ hfp))
        have hself : (acc.setGate (pg.swapChild (Int.ofNat idx) (-(Int.ofNat idx))).1).find?
            (pg.swapChild (Int.ofNat idx) (-(Int.ofNat idx))).1.index =
            some (pg.swapChild (Int.ofNat idx) (-(Int.ofNat idx))).1 := find?_setGate_self ..
        rw [hnpidx, ← hidxp] at hself
        refine ⟨_, hself, ?_⟩
        intro q hq
        rw [swapChild_parents, ← hgieq]
        exact hgipar q hq
      · refine ⟨gi, ?_, hgipar⟩
        rw [find?_setGate_ne acc _ idx (by rw [hnpidx]; exact hidxp)]
        exact hgifind

theorem normShape_notifyParents (t : IFT) (idx : Nat) (h : t.normShape) :
    (t.notifyParents idx).normShape := by
  unfold IFT.notifyParents
  split
  · exact h
  · next g hg =>
    split
    · exact notifyFold_normShape idx g.parents g.parents (fun q hq => hq) t h
        ⟨g, hg, fun q hq => hq⟩
    · exact h

theorem normShape_gatherParentInfo (t : IFT) (fuel : Nat) (h : t.normShape) :
    (t.gatherParentInfo fuel).normShape := by
  unfold IFT.gatherParentInfo
  split
  · exact h
  · next g hg =>
    obtain ⟨hwf, hb, hgood, hxb, hacc⟩ := h
    obtain ⟨w1, w2, w3⟩ := gatherRun_acc fuel t t.topEventIndex g.children
      [t.topEventIndex] hwf hacc ⟨g, hg, fun x hx => hx⟩
    exact ⟨w1, keysBounded_of_dom hb (gatherRun_frame fuel t _ _ _) (dom_of_shapeMap w3),
      goodChildren_of_shapeMap w3 hgood, xorBinary_of_shapeMap w3 hxb, w2⟩

theorem normShape_setGate_retype (t : IFT) (g g2 : IndexedGate)
    (hfind : t.find? g2.index = some g)
    (hidx : g2.index = g.index) (hch : g2.children = g.children)
    (hpar : g2.parents = g.parents)
    (hxg : g2.gtype = GateType.xorG → g.gtype = GateType.xorG)
    (h : t.normShape) : (t.setGate g2).normShape := by
  obtain ⟨hwf, hb, hgood, hxb, hacc⟩ := h
  have hself : (t.setGate g2).find? g2.index = some g2 := find?_setGate_self ..
  refine ⟨wf_setGate _ hwf, ?_, ?_, ?_, ?_⟩
  · refine keysBounded_setGate _ hb ?_
    obtain ⟨q, hq, hq1, _⟩ := find?_mem hfind
    exact hq1 ▸ hb q hq
  · intro j gg hj
    rcases find?_setGate_cases t g2 j with hcs | hcs
    · rw [hj] at hcs
      cases Option.some.inj hcs
      rw [hch]
      exact hgood g2.index g hfind
    · rw [hcs] at hj
      exact hgood j gg hj
  · intro j gg hj hx
    rcases find?_setGate_cases t g2 j with hcs | hcs
    · rw [hj] at hcs
      cases Option.some.inj hcs
      obtain ⟨a, b, hab⟩ := hxb g2.index g hfind (hxg hx)
      exact ⟨a, b, hch.trans hab⟩
    · rw [hcs] at hj
      exact hxb j gg hj hx
  · intro j gg q hj hq
    have href : ∀ j2, (∃ c ∈ g.children, c.natAbs = j2) →
        ∃ c ∈ g2.children, c.natAbs = j2 := by
      intro j2 hc
      rw [hch]
      exact hc
    rcases find?_setGate_cases t g2 j with hcs | hcs
    · rw [hj] at hcs
      cases Option.some.inj hcs
      have hj2 : g2.index = j := wf_find?_index (wf_setGate _ hwf) hj
      rw [hpar] at hq
      obtain ⟨pg, hpg, c2, hc2, hc2abs⟩ := hacc g2.index g q hfind hq
      by_cases hqg : q = g2.index
      · subst hqg
        have hpge : g = pg := Option.some.inj (hfind.symm.trans hpg)
        refine ⟨g2, hself, ?_⟩
        obtain ⟨c3, hc3, hc3abs⟩ := href g2.index ⟨c2, hpge ▸ hc2, hc2abs⟩
        exact ⟨c3, hc3, hj2 ▸ hc3abs⟩
      · refine ⟨pg, ?_, c2, hc2, hj2 ▸ hc2abs⟩
        rw [find?_setGate_ne t g2 q hqg]
        exact hpg
    · rw [hcs] at hj
      obtain ⟨pg, hpg, c2, hc2, hc2abs⟩ := hacc j gg q hj hq
      by_cases hqg : q = g2.index
      · subst hqg
        have hpge : g = pg := Option.some.inj (hfind.symm.trans hpg)
        refine ⟨g2, hself, ?_⟩
        exact href j ⟨c2, hpge ▸ hc2, hc2abs⟩
      · refine ⟨pg, ?_, c2, hc2, hc2abs⟩
        rw [find?_setGate_ne t g2 q hqg]
        exact hpg

theorem atleastFold_index2 (sets : List (List Int)) :
    ∀ (p : IFT × IndexedGate),
    ((sets.foldl (fun (acc : IFT × IndexedGate) s =>
      let f := acc.1.newGateIndex + 1
      let ng := ((⟨f, GateType.andG, 0, [], GState.normal, [], ((0 : Nat), (0 : Nat),
        (0 : Nat))⟩ : IndexedGate).addChildren s).1
      (({ acc.1 with newGateIndex := f }).setGate ng, (acc.2.addChild (Int.ofNat f)).1))
      p).2).index = p.2.index := by
  induction sets with
  | nil => intro p; rfl
  | cons s rest ih =>
    intro p
    rw [List.foldl_cons, ih]
    exact addChild_index ..

theorem atleastFold_bound_mono (sets : List (List Int)) :
    ∀ (p : IFT × IndexedGate),
    p.1.newGateIndex ≤ ((sets.foldl (fun (acc : IFT × IndexedGate) s =>
      let f := acc.1.newGateIndex + 1
      let ng := ((⟨f, GateType.andG, 0, [], GState.normal, [], ((0 : Nat), (0 : Nat),
        (0 : Nat))⟩ : IndexedGate).addChildren s).1
      (({ acc.1 with newGateIndex := f }).setGate ng, (acc.2.addChild (Int.ofNat f)).1))
      p).1).newGateIndex := by
  induction sets with
  | nil => intro p; exact le_refl _
  | cons s rest ih =>
    intro p
    rw [List.foldl_cons]
    exact le_trans (Nat.le_succ _) (ih (({ p.1 with newGateIndex := p.1.newGateIndex + 1 }).setGate
        ((⟨p.1.newGateIndex + 1, GateType.andG, 0, [], GState.normal, [],
          ((0 : Nat), (0 : Nat), (0 : Nat))⟩ : IndexedGate).addChildren s).1,
      (p.2.addChild (Int.ofNat (p.1.newGateIndex + 1))).1))

theorem atleastFold_xorloc (sets : List (List Int)) (R : Nat → Prop) :
    ∀ (p : IFT × IndexedGate),
    p.1.WF → p.1.keysBounded →
    (∀ j gg, p.1.find? j = some gg → gg.gtype = GateType.xorG →
      R j ∧ ∃ a b, gg.children = [a, b]) →
    ((sets.foldl (fun (acc : IFT × IndexedGate) s =>
      let f := acc.1.newGateIndex + 1
      let ng := ((⟨f, GateType.andG, 0, [], GState.normal, [], ((0 : Nat), (0 : Nat),
        (0 : Nat))⟩ : IndexedGate).addChildren s).1
      (({ acc.1 with newGateIndex := f }).setGate ng, (acc.2.addChild (Int.ofNat f)).1))
      p).1).WF ∧
    ((sets.foldl (fun (acc : IFT × IndexedGate) s =>
      let f := acc.1.newGateIndex + 1
      let ng := ((⟨f, GateType.andG, 0, [], GState.normal, [], ((0 : Nat), (0 : Nat),
        (0 : Nat))⟩ : IndexedGate).addChildren s).1
      (({ acc.1 with newGateIndex := f }).setGate ng, (acc.2.addChild (Int.ofNat f)).1))
      p).1).keysBounded ∧
    (∀ j gg, ((sets.foldl (fun (acc : IFT × IndexedGate) s =>
      let f := acc.1.newGateIndex + 1
      let ng := ((⟨f, GateType.andG, 0, [], GState.normal, [], ((0 : Nat), (0 : Nat),
        (0 : Nat))⟩ : IndexedGate).addChildren s).1
      (({ acc.1 with newGateIndex := f }).setGate ng, (acc.2.addChild (Int.ofNat f)).1))
      p).1).find? j = some gg → gg.gtype = GateType.xorG →
      R j ∧ ∃ a b, gg.children = [a, b]) := by
  induction sets with
  | nil => intro p h1 h2 h3; exact ⟨h1, h2, h3⟩
  | cons s rest ih =>
    intro p h1 h2 h3
    rw [List.foldl_cons]
    refine ih (({ p.1 with newGateIndex := p.1.newGateIndex + 1 }).setGate
        ((⟨p.1.newGateIndex + 1, GateType.andG, 0, [], GState.normal, [],
          ((0 : Nat), (0 : Nat), (0 : Nat))⟩ : IndexedGate).addChildren s).1,
      (p.2.addChild (Int.ofNat (p.1.newGateIndex + 1))).1) ?_ ?_ ?_
    · exact wf_setGate _ h1
    · refine keysBounded_setGate _ (keysBounded_raise h2 (Nat.le_succ _)) ?_
      exact le_of_eq (addChildren_index ..)
    · intro j gg hj hx
      rcases find?_setGate_cases { p.1 with newGateIndex := p.1.newGateIndex + 1 }
        ((⟨p.1.newGateIndex + 1, GateType.andG, 0, [], GState.normal, [],
          ((0 : Nat), (0 : Nat), (0 : Nat))⟩ : IndexedGate).addChildren s).1 j with hcs | hcs
      · rw [hj] at hcs
        cases Option.some.inj hcs
        rw [addChildren_gtype] at hx
        simp at hx
      · rw [hcs] at hj
        exact h3 j gg hj hx

theorem setGate_final_xorstep (u : IFT) (gf : IndexedGate) (k : Nat) (P : Nat → Prop)
    (hidx : gf.index = k) (hxne : gf.gtype ≠ GateType.xorG)
    (h3 : ∀ j gg, u.find? j = some gg → gg.gtype = GateType.xorG →
      (j = k ∨ P j) ∧ ∃ a b, gg.children = [a, b]) :
    ∀ j gg, (u.setGate gf).find? j = some gg → gg.gtype = GateType.xorG →
      P j ∧ ∃ a b, gg.children = [a, b] := by
  intro j gg hj hx
  by_cases hjk : j = k
  · subst hjk
    have hself := find?_setGate_self u gf
    rw [hidx] at hself
    cases Option.some.inj (hj.symm.trans hself)
    exact absurd hx hxne
  · rcases find?_setGate_cases u gf j with hcs | hcs
    · rw [hj] at hcs
      cases Option.some.inj hcs
      exact absurd hx hxne
    · rw [hcs] at hj
      obtain ⟨hjP, hab⟩ := h3 j gg hj hx
      rcases hjP with rfl | hjP
      · exact absurd rfl hjk
      · exact ⟨hjP, hab⟩

theorem setGate3_xorstep (acc : IFT) (k : Nat) (P : Nat → Prop) (g1 g2 g3 : IndexedGate)
    (h1 : acc.WF) (h2 : acc.keysBounded)
    (hi1 : g1.index = acc.newGateIndex + 1) (hi2 : g2.index = acc.newGateIndex + 2)
    (hi3 : g3.index = k) (hkb : k ≤ acc.newGateIndex)
    (hx1 : g1.gtype ≠ GateType.xorG) (hx2 : g2.gtype ≠ GateType.xorG)
    (hx3 : g3.gtype ≠ GateType.xorG)
    (h3 : ∀ j gg, acc.find? j = some gg → gg.gtype = GateType.xorG →
      (j = k ∨ P j) ∧ ∃ a b, gg.children = [a, b]) :
    (((({ acc with newGateIndex := acc.newGateIndex + 2 }).setGate g1).setGate g2).setGate
      g3).WF ∧
    (((({ acc with newGateIndex := acc.newGateIndex + 2 }).setGate g1).setGate g2).setGate
      g3).keysBounded ∧
    (∀ j gg, (((({ acc with newGateIndex := acc.newGateIndex + 2 }).setGate g1).setGate
        g2).setGate g3).find? j = some gg → gg.gtype = GateType.xorG →
      P j ∧ ∃ a b, gg.children = [a, b]) := by
  refine ⟨wf_setGate _ (wf_setGate _ (wf_setGate _ h1)), ?_, ?_⟩
  · have hb0 : IFT.keysBounded { acc with newGateIndex := acc.newGateIndex + 2 } :=
      keysBounded_raise h2 (by omega)
    have hb1 := keysBounded_setGate g1 hb0
      (by rw [hi1]; exact Nat.le_succ _)
    have hb2 := keysBounded_setGate g2 hb1 (by rw [hi2]; exact le_refl _)
    refine keysBounded_setGate g3 hb2 ?_
    rw [hi3]
    show k ≤ acc.newGateIndex + 2
    omega
  · intro j gg hj hx
    by_cases hj3 : j = k
    · subst hj3
      have hself := find?_setGate_self
        ((({ acc with newGateIndex := acc.newGateIndex + 2 }).setGate g1).setGate g2) g3
      rw [hi3] at hself
      cases Option.some.inj (hj.symm.trans hself)
      exact absurd hx hx3
    · rcases find?_setGate_cases
        ((({ acc with newGateIndex := acc.newGateIndex + 2 }).setGate g1).setGate g2) g3 j
        with hcs | hcs
      · rw [hj] at hcs
        cases Option.some.inj hcs
        exact absurd hx hx3
      · rw [hcs] at hj
        rcases find?_setGate_cases
          (({ acc with newGateIndex := acc.newGateIndex + 2 }).setGate g1) g2 j with hcs2 | hcs2
        · rw [hj] at hcs2
          cases Option.some.inj hcs2
          exact absurd hx hx2
        · rw [hcs2] at hj
          rcases find?_setGate_cases
            { acc with newGateIndex := acc.newGateIndex + 2 } g1 j with hcs1 | hcs1
          · rw [hj] at hcs1
            cases Option.some.inj hcs1
            exact absurd hx hx1
          · rw [hcs1] at hj
            obtain ⟨hjP, hab⟩ := h3 j gg hj hx
            rcases hjP with rfl | hjP
            · exact absurd rfl hj3
            · exact ⟨hjP, hab⟩

theorem normalizeGate_xorstep (acc : IFT) (k : Nat) (P : Nat → Prop)
    (h1 : acc.WF) (h2 : acc.keysBounded)
    (h3 : ∀ j gg, acc.find? j = some gg → gg.gtype = GateType.xorG →
      (j = k ∨ P j) ∧ ∃ a b, gg.children = [a, b]) :
    (acc.normalizeGate k).WF ∧ (acc.normalizeGate k).keysBounded ∧
    (∀ j gg, (acc.normalizeGate k).find? j = some gg → gg.gtype = GateType.xorG →
      P j ∧ ∃ a b, gg.children = [a, b]) := by
  unfold IFT.normalizeGate
  split
  · next hk =>
    refine ⟨h1, h2, ?_⟩
    intro j gg hj hx
    obtain ⟨hjP, hab⟩ := h3 j gg hj hx
    rcases hjP with rfl | hjP
    · rw [hk] at hj
      exact Option.noConfusion hj
    · exact ⟨hjP, hab⟩
  · next g hgk =>
    have hgidx : g.index = k := wf_find?_index h1 hgk
    have hkb : k ≤ acc.newGateIndex := by
      obtain ⟨q, hq, hq1, _⟩ := find?_mem hgk
      exact hq1 ▸ h2 q hq
    split
    · exact ⟨wf_setGate _ h1, keysBounded_setGate _ h2 (hgidx.symm ▸ hkb),
        setGate_final_xorstep acc _ k P hgidx (by simp) h3⟩
    · exact ⟨wf_setGate _ h1, keysBounded_setGate _ h2 (hgidx.symm ▸ hkb),
        setGate_final_xorstep acc _ k P hgidx (by simp) h3⟩
    · exact ⟨wf_setGate _ h1, keysBounded_setGate _ h2 (hgidx.symm ▸ hkb),
        setGate_final_xorstep acc _ k P hgidx (by simp) h3⟩
    · exact ⟨wf_setGate _ h1, keysBounded_setGate _ h2 (hgidx.symm ▸ hkb),
        setGate_final_xorstep acc _ k P hgidx (by simp) h3⟩
    · next hgty =>
      obtain ⟨_, a, b, hab⟩ := h3 k g hgk hgty
      simp only [IFT.normalizeXorGate, hgk, hab]
      refine setGate3_xorstep acc k P _ _ _ h1 h2 ?_ ?_ ?_ hkb ?_ ?_ ?_ h3
      · rw [addChild_index, addChild_index]
      · rw [addChild_index, addChild_index]
      · rw [addChild_index, addChild_index]
        exact hgidx
      · rw [addChild_gtype, addChild_gtype]
        simp
      · rw [addChild_gtype, addChild_gtype]
        simp
      · rw [addChild_gtype, addChild_gtype]
        simp
    · next hgty =>
      simp only [IFT.normalizeAtleastGate, hgk]
      obtain ⟨w1, w2, w3⟩ := atleastFold_xorloc (atleastSets g.children g.voteNumber)
        (fun j => j = k ∨ P j)
        (acc, { g with gtype := GateType.orG, children := ([] : List Int) }) h1 h2 h3
      refine ⟨wf_setGate _ w1, keysBounded_setGate _ w2 ?_, ?_⟩
      · rw [atleastFold_index2]
        show g.index ≤ _
        exact le_trans (hgidx.symm ▸ hkb)
          (atleastFold_bound_mono (atleastSets g.children g.voteNumber)
            (acc, { g with gtype := GateType.orG, children := ([] : List Int) }))
      · refine setGate_final_xorstep _ _ k P ?_ ?_ w3
        · rw [atleastFold_index2]
          exact hgidx
        · rw [atleastFold_gtype2]
          simp
    · refine ⟨h1, h2, ?_⟩
      intro j gg hj hx
      obtain ⟨hjP, hab⟩ := h3 j gg hj hx
      rcases hjP with rfl | hjP
      · have hgg : gg = g := Option.some.inj (hj.symm.trans hgk)
        subst hgg
        rename_i hne1 hne2 hne3 hne4 hne5 hne6
        exact absurd hx hne5
      · exact ⟨hjP, hab⟩

theorem normalizeFold_noxor : ∀ (ks : List Nat) (acc : IFT), acc.WF → acc.keysBounded →
    (∀ j gg, acc.find? j = some gg → gg.gtype = GateType.xorG →
      j ∈ ks ∧ ∃ a b, gg.children = [a, b]) →
    ∀ j gg, (ks.foldl (fun (a : IFT) (k : Nat) => a.normalizeGate k) acc).find? j = some gg →
      gg.gtype ≠ GateType.xorG := by
  intro ks
  induction ks with
  | nil =>
    intro acc _ _ h3 j gg hj hx
    exact absurd (h3 j gg hj hx).1 (List.not_mem_nil _)
  | cons k rest ih =>
    intro acc h1 h2 h3
    simp only [List.foldl_cons]
    have hstep := normalizeGate_xorstep acc k (fun j => j ∈ rest) h1 h2 (by
      intro j gg hj hx
      obtain ⟨hjm, hab⟩ := h3 j gg hj hx
      exact ⟨List.mem_cons.mp hjm, hab⟩)
    exact ih (acc.normalizeGate k) hstep.1 hstep.2.1 hstep.2.2

theorem normalizeGates_noxor : ∀ (fuel : Nat) (t u : IFT),
    t.WF → t.keysBounded → t.goodChildren → t.xorBinary → t.parentsEmpty →
    IFT.normalizeGates fuel t = some u →
    ∀ j gg, u.find? j = some gg → gg.gtype ≠ GateType.xorG := by
  intro fuel
  induction fuel with
  | zero => intro t u _ _ _ _ _ h; exact Option.noConfusion h
  | succ n ih =>
    intro t u hwf hb hgood hxb hpe h
    rw [IFT.normalizeGates] at h
    revert h
    split
    · intro h; exact Option.noConfusion h
    · next top hfind =>
      split
      · split
        · split
          · intro h; exact Option.noConfusion h
          · intro h
            obtain ⟨e1, e2, e3, e4, e5⟩ := eraseGate_props t t.topEventIndex hwf hb hgood hxb hpe
            refine ih _ u ?_ ?_ ?_ ?_ ?_ h
            · exact e1
            · exact e2
            · exact e3
            · exact e4
            · exact e5
        · intro h; exact Option.noConfusion h
      · next hnn =>
        intro h
        have hu : u = _ := (Option.some.inj h).symm
        subst hu
        have htopidx : top.index = t.topEventIndex := wf_find?_index hwf hfind
        set t1 := if top.gtype = GateType.norG then
            { t.setGate { top with gtype := GateType.orG } with
              topEventSign := t.topEventSign * -1 }
          else if top.gtype = GateType.orG then t.setGate { top with gtype := GateType.orG }
          else if top.gtype = GateType.nandG then
            { t.setGate { top with gtype := GateType.andG } with
              topEventSign := t.topEventSign * -1 }
          else if top.gtype = GateType.andG then t.setGate { top with gtype := GateType.andG }
          else t with ht1
        have hsh : t.normShape := ⟨hwf, hb, hgood, hxb, parentsAcc_of_empty hpe⟩
        have hsh1 : t1.normShape := by
          by_cases h1 : top.gtype = GateType.norG
          · rw [ht1, if_pos h1]
            exact normShape_setGate_retype t top { top with gtype := GateType.orG }
              (htopidx.symm ▸ hfind) rfl rfl rfl (by intro hc; simp at hc) hsh
          · by_cases h2 : top.gtype = GateType.orG
            · rw [ht1, if_neg h1, if_pos h2]
              exact normShape_setGate_retype t top { top with gtype := GateType.orG }
                (htopidx.symm ▸ hfind) rfl rfl rfl (by intro hc; simp at hc) hsh
            · by_cases h3 : top.gtype = GateType.nandG
              · rw [ht1, if_neg h1, if_neg h2, if_pos h3]
                exact normShape_setGate_retype t top { top with gtype := GateType.andG }
                  (htopidx.symm ▸ hfind) rfl rfl rfl (by intro hc; simp at hc) hsh
              · by_cases h4 : top.gtype = GateType.andG
                · rw [ht1, if_neg h1, if_neg h2, if_neg h3, if_pos h4]
                  exact normShape_setGate_retype t top { top with gtype := GateType.andG }
                    (htopidx.symm ▸ hfind) rfl rfl rfl (by intro hc; simp at hc) hsh
                · rw [ht1, if_neg h1, if_neg h2, if_neg h3, if_neg h4]
                  exact hsh
        have hsh2 : (t1.gatherParentInfo n).normShape := normShape_gatherParentInfo t1 n hsh1
        have hsh3 := foldl_preserves_prop IFT.normShape
          (fun (acc : IFT) (k : Nat) => if k = acc.topEventIndex then acc
            else acc.notifyParents k)
          (by
            intro v k hv
            by_cases hk : k = v.topEventIndex
            · simpa [hk] using hv
            · simp only [if_neg hk]
              exact normShape_notifyParents v k hv)
          ((t1.gatherParentInfo n).gates.map Prod.fst) (t1.gatherParentInfo n) hsh2
        obtain ⟨w1, w2, w3, w4, w5⟩ := hsh3
        refine normalizeFold_noxor _ _ w1 w2 ?_
        intro j gg hj hx
        refine ⟨?_, w4 j gg hj hx⟩
        obtain ⟨q, hq, hq1, _⟩ := find?_mem hj
        rw [← hq1]
        exact List.mem_map_of_mem Prod.fst hq

theorem normalizeXorGate_local (t : IFT) (idx : Nat) (g : IndexedGate) (a b : Int)
    (hkb : t.keysBounded) (hfind : t.find? idx = some g) (hgidx : g.index = idx)
    (hab : g.children = [a, b]) (hlt : a < b) (hnab : -a ≠ b) :
    (t.find? (t.newGateIndex + 1) = none ∧ t.find? (t.newGateIndex + 2) = none) ∧
    (∃ g0, (t.normalizeXorGate idx).find? idx = some g0 ∧ g0.gtype = GateType.orG ∧
      g0.children = [Int.ofNat (t.newGateIndex + 1), Int.ofNat (t.newGateIndex + 2)]) ∧
    (∃ g1, (t.normalizeXorGate idx).find? (t.newGateIndex + 1) = some g1 ∧
      g1.gtype = GateType.andG ∧ ∀ x, x ∈ g1.children ↔ x = a ∨ x = -b) ∧
    (∃ g2, (t.normalizeXorGate idx).find? (t.newGateIndex + 2) = some g2 ∧
      g2.gtype = GateType.andG ∧ ∀ x, x ∈ g2.children ↔ x = -a ∨ x = b) := by
  have hidxb : idx ≤ t.newGateIndex := by
    obtain ⟨q, hq, hq1, _⟩ := find?_mem hfind
    exact hq1 ▸ hkb q hq
  refine ⟨⟨find?_none_of_gt_bound hkb (by omega), find?_none_of_gt_bound hkb (by omega)⟩, ?_⟩
  have e1 : ((⟨t.newGateIndex + 1, GateType.andG, 0, [], GState.normal, [],
      ((0 : Nat), (0 : Nat), (0 : Nat))⟩ : IndexedGate).addChild a).1 =
      ⟨t.newGateIndex + 1, GateType.andG, 0, [a], GState.normal, [],
        ((0 : Nat), (0 : Nat), (0 : Nat))⟩ := by
    rw [addChild_no_collision _ a (by simp)]
    rfl
  have e2 : ((⟨t.newGateIndex + 1, GateType.andG, 0, [a], GState.normal, [],
      ((0 : Nat), (0 : Nat), (0 : Nat))⟩ : IndexedGate).addChild (-b)).1 =
      ⟨t.newGateIndex + 1, GateType.andG, 0, insertSorted (-b) [a], GState.normal, [],
        ((0 : Nat), (0 : Nat), (0 : Nat))⟩ := by
    rw [addChild_no_collision _ (-b) (by
      intro hc
      rw [neg_neg] at hc
      simp only [List.mem_singleton] at hc
      exact Ne.symm (ne_of_lt hlt) hc)]
  have e3 : ((⟨t.newGateIndex + 2, GateType.andG, 0, [], GState.normal, [],
      ((0 : Nat), (0 : Nat), (0 : Nat))⟩ : IndexedGate).addChild (-a)).1 =
      ⟨t.newGateIndex + 2, GateType.andG, 0, [-a], GState.normal, [],
        ((0 : Nat), (0 : Nat), (0 : Nat))⟩ := by
    rw [addChild_no_collision _ (-a) (by simp)]
    rfl
  have e4 : ((⟨t.newGateIndex + 2, GateType.andG, 0, [-a], GState.normal, [],
      ((0 : Nat), (0 : Nat), (0 : Nat))⟩ : IndexedGate).addChild b).1 =
      ⟨t.newGateIndex + 2, GateType.andG, 0, insertSorted b [-a], GState.normal, [],
        ((0 : Nat), (0 : Nat), (0 : Nat))⟩ := by
    rw [addChild_no_collision _ b (by
      intro hc
      simp only [List.mem_singleton] at hc
      exact Ne.symm (ne_of_lt hlt) (neg_inj.mp hc))]
  have e5 : (({ g with gtype := GateType.orG, children := ([] : List Int) }).addChild
      (Int.ofNat (t.newGateIndex + 1))).1 =
      { g with gtype := GateType.orG, children := [Int.ofNat (t.newGateIndex + 1)] } := by
    rw [addChild_no_collision _ _ (by simp)]
    rfl
  have e6 : (({ g with gtype := GateType.orG, children := [Int.ofNat (t.newGateIndex + 1)] }
      ).addChild (Int.ofNat (t.newGateIndex + 2))).1 =
      { g with
        gtype := GateType.orG
        children := [Int.ofNat (t.newGateIndex + 1), Int.ofNat (t.newGateIndex + 2)] } := by
    rw [addChild_no_collision _ _ (by
      intro hc
      simp only [List.mem_singleton, Int.ofNat_eq_natCast] at hc
      omega)]
    rw [show insertSorted (Int.ofNat (t.newGateIndex + 2)) [Int.ofNat (t.newGateIndex + 1)] =
        [Int.ofNat (t.newGateIndex + 1), Int.ofNat (t.newGateIndex + 2)] from by
      simp only [insertSorted, Int.ofNat_eq_natCast]
      rw [if_neg (by omega), if_neg (by omega)]]
  simp only [IFT.normalizeXorGate, hfind, hab]
  rw [e1, e2, e3, e4, e5, e6]
  refine ⟨⟨{ g with
      gtype := GateType.orG
      children := [Int.ofNat (t.newGateIndex + 1), Int.ofNat (t.newGateIndex + 2)] },
      ?_, ?_, ?_⟩,
    ⟨⟨t.newGateIndex + 1, GateType.andG, 0, insertSorted (-b) [a], GState.normal, [],
      ((0 : Nat), (0 : Nat), (0 : Nat))⟩, ?_, ?_, ?_⟩,
    ⟨⟨t.newGateIndex + 2, GateType.andG, 0, insertSorted b [-a], GState.normal, [],
      ((0 : Nat), (0 : Nat), (0 : Nat))⟩, ?_, ?_, ?_⟩⟩
  · rw [← hgidx]
    exact find?_setGate_self ..
  · rfl
  · rfl
  · rw [find?_setGate_ne _ _ _ (by rw [hgidx]; omega),
      find?_setGate_ne _ _ _ (by show t.newGateIndex + 1 ≠ t.newGateIndex + 2; omega)]
    exact find?_setGate_self ..
  · rfl
  · intro x
    rw [show (⟨t.newGateIndex + 1, GateType.andG, 0, insertSorted (-b) [a], GState.normal, [],
        ((0 : Nat), (0 : Nat), (0 : Nat))⟩ : IndexedGate).children =
      insertSorted (-b) [a] from rfl]
    rw [mem_insertSorted, List.mem_singleton]
    exact or_comm
  · rw [find?_setGate_ne _ _ _ (by rw [hgidx]; omega)]
    exact find?_setGate_self ..
  · rfl
  · intro x
    rw [show (⟨t.newGateIndex + 2, GateType.andG, 0, insertSorted b [-a], GState.normal, [],
        ((0 : Nat), (0 : Nat), (0 : Nat))⟩ : IndexedGate).children =
      insertSorted b [-a] from rfl]
    rw [mem_insertSorted, List.mem_singleton]
    exact or_comm

/-- C6.  `NormalizeXorGate` on a binary XOR gate with children `a` and
`b` (ascending and without a complement pair, as the data model
guarantees) rewrites it into an OR gate whose children are exactly the
two freshly allocated indices — both previously absent from the map —
holding AND gates over `{a, -b}` and `{-a, b}` respectively; and after
a successful run of `NormalizeGates` on a well-formed graph (keys
bounded by the fresh-index counter, data-model child sets, binary XOR
gates, empty parent records) no XOR gate remains anywhere in the
result. -/
theorem c6_xor_normalization :
    (∀ (t : IFT) (idx : Nat) (g : IndexedGate) (a b : Int),
      t.keysBounded → t.find? idx = some g → g.index = idx →
      g.children = [a, b] → a < b → -a ≠ b →
      (t.find? (t.newGateIndex + 1) = none ∧ t.find? (t.newGateIndex + 2) = none) ∧
      (∃ g0, (t.normalizeXorGate idx).find? idx = some g0 ∧ g0.gtype = GateType.orG ∧
        g0.children = [Int.ofNat (t.newGateIndex + 1), Int.ofNat (t.newGateIndex + 2)]) ∧
      (∃ g1, (t.normalizeXorGate idx).find? (t.newGateIndex + 1) = some g1 ∧
        g1.gtype = GateType.andG ∧ ∀ x, x ∈ g1.children ↔ x = a ∨ x = -b) ∧
      (∃ g2, (t.normalizeXorGate idx).find? (t.newGateIndex + 2) = some g2 ∧
        g2.gtype = GateType.andG ∧ ∀ x, x ∈ g2.children ↔ x = -a ∨ x = b)) ∧
    (∀ (fuel : Nat) (t u : IFT),
      t.WF → t.keysBounded → t.goodChildren → t.xorBinary → t.parentsEmpty →
      IFT.normalizeGates fuel t = some u →
      ∀ j gg, u.find? j = some gg → gg.gtype ≠ GateType.xorG) :=
  ⟨normalizeXorGate_local, normalizeGates_noxor⟩

theorem c6_xor_normalization_witness :
    (treeF.keysBounded ∧
      treeF.find? 4 = some ⟨4, GateType.xorG, 0, [1, 2], GState.normal, [], (0, 0, 0)⟩ ∧
      (1 : Int) < 2 ∧ -(1 : Int) ≠ 2 ∧
      ((treeF.find? 5 = none ∧ treeF.find? 6 = none) ∧
        (∃ g0, (treeF.normalizeXorGate 4).find? 4 = some g0 ∧ g0.gtype = GateType.orG ∧
          g0.children = [Int.ofNat 5, Int.ofNat 6]) ∧
        (∃ g1, (treeF.normalizeXorGate 4).find? 5 = some g1 ∧ g1.gtype = GateType.andG ∧
          ∀ x, x ∈ g1.children ↔ x = 1 ∨ x = -2) ∧
        (∃ g2, (treeF.normalizeXorGate 4).find? 6 = some g2 ∧ g2.gtype = GateType.andG ∧
          ∀ x, x ∈ g2.children ↔ x = -1 ∨ x = 2))) ∧
    (treeF.WF ∧ IFT.normalizeGates 20 treeF = some treeFn ∧
      treeFn.find? 4 = some ⟨4, GateType.orG, 0, [5, 6], GState.normal, [], (0, 0, 0)⟩ ∧
      (⟨4, GateType.orG, 0, [5, 6], GState.normal, [], ((0 : Nat), (0 : Nat), (0 : Nat))⟩ :
        IndexedGate).gtype ≠ GateType.xorG) := by
  have hWF : treeF.WF := by
    show ∀ p ∈ treeF.gates, p.2.index = p.1
    decide
  have hkb : treeF.keysBounded := by
    show ∀ p ∈ treeF.gates, p.1 ≤ treeF.newGateIndex
    decide
  have hpe : treeF.parentsEmpty := by
    show ∀ p ∈ treeF.gates, p.2.parents = []
    decide
  have hsingle : ∀ (j : Nat) (g : IndexedGate), treeF.find? j = some g →
      g = ⟨4, GateType.xorG, 0, [1, 2], GState.normal, [], (0, 0, 0)⟩ := by
    intro j g hj
    obtain ⟨p, hp, hp1, hp2⟩ := find?_mem hj
    have hp4 : p = (4, ⟨4, GateType.xorG, 0, [1, 2], GState.normal, [], (0, 0, 0)⟩) := by
      simpa [treeF] using hp
    rw [hp4] at hp2
    exact hp2.symm
  have hgood : treeF.goodChildren := by
    intro j g hj
    rw [hsingle j g hj]
    exact ⟨by decide, by decide⟩
  have hxb : treeF.xorBinary := by
    intro j g hj _
    rw [hsingle j g hj]
    exact ⟨1, 2, rfl⟩
  have hsome : IFT.normalizeGates 20 treeF = some treeFn := rfl
  refine ⟨⟨hkb, rfl, by decide, by decide, ?_⟩, hWF, hsome, rfl, ?_⟩
  · exact c6_xor_normalization.1 treeF 4
      ⟨4, GateType.xorG, 0, [1, 2], GState.normal, [], (0, 0, 0)⟩ 1 2 hkb rfl rfl rfl
      (by decide) (by decide)
  · exact c6_xor_normalization.2 20 treeF treeFn hWF hkb hgood hxb hpe hsome 4 _ rfl

theorem mem_insertSetOfSets {x s : List Int} : ∀ {l : List (List Int)},
    x ∈ insertSetOfSets s l ↔ x = s ∨ x ∈ l := by
  intro l
  induction l with
  | nil => simp [insertSetOfSets]
  | cons y ys ih =>
    by_cases h1 : s < y
    · simp only [insertSetOfSets, if_pos h1, List.mem_cons]
    · by_cases h2 : s = y
      · subst h2
        rw [show insertSetOfSets s (s :: ys) = s :: ys by simp [insertSetOfSets, h1]]
        simp only [List.mem_cons]
        tauto
      · simp only [insertSetOfSets, if_neg h1, if_neg h2, List.mem_cons, ih]
        tauto

theorem insertSetOfSets_sorted {s : List Int} : ∀ {l : List (List Int)},
    l.Pairwise (· < ·) → (insertSetOfSets s l).Pairwise (· < ·) := by
  intro l
  induction l with
  | nil => intro _; simp [insertSetOfSets]
  | cons y ys ih =>
    intro hs
    by_cases h1 : s < y
    · rw [show insertSetOfSets s (y :: ys) = s :: y :: ys by simp [insertSetOfSets, h1]]
      refine List.Pairwise.cons ?_ hs
      intro b hb
      rcases List.mem_cons.mp hb with rfl | hb
      · exact h1
      · exact h1.trans (List.rel_of_pairwise_cons hs hb)
    · by_cases h2 : s = y
      · rw [show insertSetOfSets s (y :: ys) = y :: ys by simp [insertSetOfSets, h1, h2]]
        exact hs
      · rw [show insertSetOfSets s (y :: ys) = y :: insertSetOfSets s ys by
          simp [insertSetOfSets, h1, h2]]
        refine List.Pairwise.cons ?_ (ih (List.Pairwise.of_cons hs))
        intro b hb
        rcases mem_insertSetOfSets.mp hb with rfl | hb
        · rcases lt_trichotomy b y with h | h | h
          · exact absurd h h1
          · exact absurd h h2
          · exact h
        · exact List.rel_of_pairwise_cons hs hb

theorem sortedLex_nodup {l : List (List Int)} (h : l.Pairwise (· < ·)) : l.Nodup :=
  h.imp ne_of_lt

theorem insertSorted_append_of_gt {c : Int} : ∀ {p : List Int}, (∀ x ∈ p, x < c) →
    insertSorted c p = p ++ [c] := by
  intro p
  induction p with
  | nil => intro _; rfl
  | cons y ys ih =>
    intro h
    have hyc : y < c := h y (List.mem_cons_self ..)
    have h1 : ¬ c < y := by omega
    have h2 : ¬ c = y := by omega
    rw [show insertSorted c (y :: ys) = y :: insertSorted c ys by simp [insertSorted, h1, h2]]
    rw [ih (fun x hx => h x (List.mem_cons_of_mem _ hx))]
    rfl

theorem insertSorted_erase_of_mem {c : Int} : ∀ {l : List Int}, l.Pairwise (· < ·) →
    c ∈ l → insertSorted c (l.erase c) = l := by
  intro l
  induction l with
  | nil => intro _ h; cases h
  | cons y ys ih =>
    intro hs hc
    rcases List.mem_cons.mp hc with rfl | hc2
    · rw [List.erase_cons_head]
      cases ys with
      | nil => rfl
      | cons z zs =>
        have hyz : c < z := List.rel_of_pairwise_cons hs (List.mem_cons_self ..)
        simp [insertSorted, hyz]
    · have hyc : y < c := List.rel_of_pairwise_cons hs hc2
      rw [show (y :: ys).erase c = y :: ys.erase c from
        List.erase_cons_tail (by simp only [beq_iff_eq]; omega)]
      have h1 : ¬ c < y := by omega
      have h2 : ¬ c = y := by omega
      rw [show insertSorted c (y :: ys.erase c) = y :: insertSorted c (ys.erase c) by
        simp [insertSorted, h1, h2]]
      rw [ih (List.Pairwise.of_cons hs) hc2]

theorem addChildren_clean : ∀ (s2 p : List Int) (g : IndexedGate), g.children = p →
    (p ++ s2).Pairwise (· < ·) → (∀ x ∈ p ++ s2, -x ∉ p ++ s2) →
    (g.addChildren s2).1 = { g with children := p ++ s2 } ∧ (g.addChildren s2).2 = true := by
  intro s2
  induction s2 with
  | nil =>
    intro p g hch _ _
    refine ⟨?_, rfl⟩
    show g = _
    rw [List.append_nil, ← hch]
  | cons c rest ih =>
    intro p g hch hsort hnc
    have hcmem : c ∈ p ++ c :: rest := by simp
    have hnc2 : -c ∉ g.children := by
      rw [hch]
      intro hmem
      exact hnc c hcmem (List.mem_append_left _ hmem)
    have hstep := addChild_no_collision g c hnc2
    have hins : insertSorted c g.children = p ++ [c] := by
      rw [hch]
      refine insertSorted_append_of_gt ?_
      intro x hx
      exact (List.pairwise_append.mp hsort).2.2 x hx c (List.mem_cons_self ..)
    have happ : (p ++ [c]) ++ rest = p ++ c :: rest := by
      rw [List.append_assoc]
      rfl
    simp only [IndexedGate.addChildren, hstep]
    obtain ⟨w1, w2⟩ := ih (p ++ [c]) { g with children := insertSorted c g.children }
      (by rw [show ({ g with children := insertSorted c g.children } :
        IndexedGate).children = insertSorted c g.children from rfl, hins])
      (by rw [happ]; exact hsort)
      (by rw [happ]; exact hnc)
    rw [happ] at w1
    exact ⟨w1, w2⟩

theorem atleastFold_build : ∀ (ss : List (List Int)) (t0 : IFT) (g0 : IndexedGate),
    (∀ s ∈ ss, s.Pairwise (· < ·) ∧ ∀ x ∈ s, -x ∉ s) →
    (∀ x ∈ g0.children, ∃ r, r ≤ t0.newGateIndex ∧ x = Int.ofNat r) →
    g0.children.Pairwise (· < ·) →
    ((ss.foldl (fun (acc : IFT × IndexedGate) s =>
      let f := acc.1.newGateIndex + 1
      let ng := ((⟨f, GateType.andG, 0, [], GState.normal, [], ((0 : Nat), (0 : Nat),
        (0 : Nat))⟩ : IndexedGate).addChildren s).1
      (({ acc.1 with newGateIndex := f }).setGate ng, (acc.2.addChild (Int.ofNat f)).1))
      (t0, g0)).1).newGateIndex = t0.newGateIndex + ss.length ∧
    (∀ j, j ≤ t0.newGateIndex →
      ((ss.foldl (fun (acc : IFT × IndexedGate) s =>
      let f := acc.1.newGateIndex + 1
      let ng := ((⟨f, GateType.andG, 0, [], GState.normal, [], ((0 : Nat), (0 : Nat),
        (0 : Nat))⟩ : IndexedGate).addChildren s).1
      (({ acc.1 with newGateIndex := f }).setGate ng, (acc.2.addChild (Int.ofNat f)).1))
      (t0, g0)).1).find? j = t0.find? j) ∧
    (∀ i (h : i < ss.length),
      ((ss.foldl (fun (acc : IFT × IndexedGate) s =>
      let f := acc.1.newGateIndex + 1
      let ng := ((⟨f, GateType.andG, 0, [], GState.normal, [], ((0 : Nat), (0 : Nat),
        (0 : Nat))⟩ : IndexedGate).addChildren s).1
      (({ acc.1 with newGateIndex := f }).setGate ng, (acc.2.addChild (Int.ofNat f)).1))
      (t0, g0)).1).find? (t0.newGateIndex + 1 + i) =
      some ⟨t0.newGateIndex + 1 + i, GateType.andG, 0, ss.get ⟨i, h⟩, GState.normal, [],
        ((0 : Nat), (0 : Nat), (0 : Nat))⟩) ∧
    ((ss.foldl (fun (acc : IFT × IndexedGate) s =>
      let f := acc.1.newGateIndex + 1
      let ng := ((⟨f, GateType.andG, 0, [], GState.normal, [], ((0 : Nat), (0 : Nat),
        (0 : Nat))⟩ : IndexedGate).addChildren s).1
      (({ acc.1 with newGateIndex := f }).setGate ng, (acc.2.addChild (Int.ofNat f)).1))
      (t0, g0)).2).children = g0.children ++
      (List.range ss.length).map (fun r => Int.ofNat (t0.newGateIndex + 1 + r)) := by
  intro ss
  induction ss with
  | nil =>
    intro t0 g0 _ _ _
    refine ⟨by simp, fun j _ => rfl, fun i h => absurd h (by simp), by simp⟩
  | cons s rest ih =>
    intro t0 g0 hss hch hsorted
    rw [List.foldl_cons]
    obtain ⟨hs_sorted, hs_nc⟩ := hss s (List.mem_cons_self ..)
    obtain ⟨w1, w2⟩ := addChildren_clean s []
      ⟨t0.newGateIndex + 1, GateType.andG, 0, [], GState.normal, [],
        ((0 : Nat), (0 : Nat), (0 : Nat))⟩ rfl (by simpa using hs_sorted)
      (by simpa using hs_nc)
    have hng : ((⟨t0.newGateIndex + 1, GateType.andG, 0, [], GState.normal, [],
        ((0 : Nat), (0 : Nat), (0 : Nat))⟩ : IndexedGate).addChildren s).1 =
        ⟨t0.newGateIndex + 1, GateType.andG, 0, s, GState.normal, [],
        ((0 : Nat), (0 : Nat), (0 : Nat))⟩ := w1
    have hcol : -(Int.ofNat (t0.newGateIndex + 1)) ∉ g0.children := by
      intro hmem
      obtain ⟨r, hr, hx⟩ := hch _ hmem
      simp only [Int.ofNat_eq_natCast] at hx
      omega
    have hstep := addChild_no_collision g0 (Int.ofNat (t0.newGateIndex + 1)) hcol
    have hins : insertSorted (Int.ofNat (t0.newGateIndex + 1)) g0.children =
        g0.children ++ [Int.ofNat (t0.newGateIndex + 1)] := by
      refine insertSorted_append_of_gt ?_
      intro x hx
      obtain ⟨r, hr, hxr⟩ := hch _ hx
      subst hxr
      simp only [Int.ofNat_eq_natCast]
      omega
    have hG1ch : ((g0.addChild (Int.ofNat (t0.newGateIndex + 1))).1).children =
        g0.children ++ [Int.ofNat (t0.newGateIndex + 1)] := by
      rw [hstep]
      exact hins
    have hch1 : ∀ x ∈ ((g0.addChild (Int.ofNat (t0.newGateIndex + 1))).1).children,
        ∃ r, r ≤ t0.newGateIndex + 1 ∧ x = Int.ofNat r := by
      intro x hx
      rw [hG1ch] at hx
      rcases List.mem_append.mp hx with h | h
      · obtain ⟨r, hr, hxr⟩ := hch _ h
        exact ⟨r, by omega, hxr⟩
      · rw [List.mem_singleton] at h
        exact ⟨t0.newGateIndex + 1, le_refl _, h⟩
    have hsort1 : ((g0.addChild (Int.ofNat (t0.newGateIndex + 1))).1).children.Pairwise
        (· < ·) := by
      rw [hG1ch]
      refine List.pairwise_append.mpr ⟨hsorted, by simp, ?_⟩
      intro x hx y hy
      rw [List.mem_singleton] at hy
      subst hy
      obtain ⟨r, hr, hxr⟩ := hch _ hx
      subst hxr
      simp only [Int.ofNat_eq_natCast]
      omega
    obtain ⟨v1, v2, v3, v4⟩ := ih
      (({ t0 with newGateIndex := t0.newGateIndex + 1 }).setGate
        ((⟨t0.newGateIndex + 1, GateType.andG, 0, [], GState.normal, [],
          ((0 : Nat), (0 : Nat), (0 : Nat))⟩ : IndexedGate).addChildren s).1)
      ((g0.addChild (Int.ofNat (t0.newGateIndex + 1))).1)
      (fun s2 hs2 => hss s2 (List.mem_cons_of_mem _ hs2)) hch1 hsort1
    have hngidx : ((⟨t0.newGateIndex + 1, GateType.andG, 0, [], GState.normal, [],
        ((0 : Nat), (0 : Nat), (0 : Nat))⟩ : IndexedGate).addChildren s).1.index =
        t0.newGateIndex + 1 := by
      rw [addChildren_index]
    refine ⟨?_, ?_, ?_, ?_⟩
    · refine v1.trans ?_
      show t0.newGateIndex + 1 + rest.length = t0.newGateIndex + (s :: rest).length
      simp only [List.length_cons]
      omega
    · intro j hj
      refine (v2 j (by show j ≤ t0.newGateIndex + 1; omega)).trans ?_
      refine (find?_setGate_ne _ _ _ ?_).trans ?_
      · rw [hngidx]
        omega
      · rfl
    · intro i hi
      cases i with
      | zero =>
        have hfound : (({ t0 with newGateIndex := t0.newGateIndex + 1 }).setGate
            ((⟨t0.newGateIndex + 1, GateType.andG, 0, [], GState.normal, [],
              ((0 : Nat), (0 : Nat), (0 : Nat))⟩ : IndexedGate).addChildren s).1).find?
            (t0.newGateIndex + 1) =
            some ⟨t0.newGateIndex + 1, GateType.andG, 0, s, GState.normal, [],
              ((0 : Nat), (0 : Nat), (0 : Nat))⟩ := by
          have h0 := find?_setGate_self { t0 with newGateIndex := t0.newGateIndex + 1 }
            ((⟨t0.newGateIndex + 1, GateType.andG, 0, [], GState.normal, [],
              ((0 : Nat), (0 : Nat), (0 : Nat))⟩ : IndexedGate).addChildren s).1
          rw [hngidx] at h0
          nth_rewrite 2 [hng] at h0
          exact h0
        exact (v2 (t0.newGateIndex + 1 + 0)
          (by show t0.newGateIndex + 1 + 0 ≤ t0.newGateIndex + 1; omega)).trans hfound
      | succ r =>
        have hr : r < rest.length := by
          simp only [List.length_cons] at hi
          omega
        rw [show t0.newGateIndex + 1 + (r + 1) = t0.newGateIndex + 1 + 1 + r from by omega]
        exact v3 r hr
    · refine v4.trans ?_
      have hmap : [Int.ofNat (t0.newGateIndex + 1)] ++
          (List.range rest.length).map (fun r => Int.ofNat (t0.newGateIndex + 1 + 1 + r)) =
          (List.range (rest.length + 1)).map
            (fun r => Int.ofNat (t0.newGateIndex + 1 + r)) := by
        rw [List.range_succ_eq_map, List.map_cons, List.map_map, List.singleton_append]
        congr 1
        refine List.map_congr_left ?_
        intro r _
        show Int.ofNat (t0.newGateIndex + 1 + 1 + r) =
          Int.ofNat (t0.newGateIndex + 1 + (r + 1))
        rw [show t0.newGateIndex + 1 + 1 + r = t0.newGateIndex + 1 + (r + 1) from by omega]
      rw [hG1ch, List.append_assoc, List.length_cons, ← hmap]
      rfl

theorem baseFold_mem (children : List Int) :
    ∀ (acc : List (List Int)) (x : List Int),
    x ∈ children.foldl (fun acc c => insertSetOfSets [c] acc) acc ↔
      x ∈ acc ∨ ∃ c ∈ children, x = [c] := by
  induction children with
  | nil => intro acc x; simp
  | cons c rest ih =>
    intro acc x
    rw [List.foldl_cons, ih, mem_insertSetOfSets]
    constructor
    · rintro ((rfl | h) | ⟨c', hc', rfl⟩)
      · exact Or.inr ⟨c, List.mem_cons_self .., rfl⟩
      · exact Or.inl h
      · exact Or.inr ⟨c', List.mem_cons_of_mem _ hc', rfl⟩
    · rintro (h | ⟨c', hc', rfl⟩)
      · exact Or.inl (Or.inr h)
      · rcases List.mem_cons.mp hc' with rfl | h2
        · exact Or.inl (Or.inl rfl)
        · exact Or.inr ⟨c', h2, rfl⟩

theorem baseFold_sorted (children : List Int) :
    ∀ (acc : List (List Int)), acc.Pairwise (· < ·) →
    (children.foldl (fun acc c => insertSetOfSets [c] acc) acc).Pairwise (· < ·) := by
  induction children with
  | nil => intro acc h; exact h
  | cons c rest ih =>
    intro acc h
    rw [List.foldl_cons]
    exact ih _ (insertSetOfSets_sorted h)

theorem stepInner_mem (i : Nat) (s : List Int) :
    ∀ (cs : List Int) (tmp2 : List (List Int)) (x : List Int),
    x ∈ cs.foldl (fun tmp2 c =>
      let s2 := insertSorted c s
      if i < s2.length then insertSetOfSets s2 tmp2 else tmp2) tmp2 ↔
    x ∈ tmp2 ∨ ∃ c ∈ cs, i < (insertSorted c s).length ∧ x = insertSorted c s := by
  intro cs
  induction cs with
  | nil => intro tmp2 x; simp
  | cons c rest ih =>
    intro tmp2 x
    rw [List.foldl_cons, ih]
    by_cases hlen : i < (insertSorted c s).length
    · rw [show (let s2 := insertSorted c s
          if i < s2.length then insertSetOfSets s2 tmp2 else tmp2) =
          insertSetOfSets (insertSorted c s) tmp2 by simp [hlen]]
      rw [mem_insertSetOfSets]
      constructor
      · rintro ((rfl | h) | ⟨c', hc', hl', rfl⟩)
        · exact Or.inr ⟨c, List.mem_cons_self .., hlen, rfl⟩
        · exact Or.inl h
        · exact Or.inr ⟨c', List.mem_cons_of_mem _ hc', hl', rfl⟩
      · rintro (h | ⟨c', hc', hl', rfl⟩)
        · exact Or.inl (Or.inr h)
        · rcases List.mem_cons.mp hc' with rfl | h2
          · exact Or.inl (Or.inl rfl)
          · exact Or.inr ⟨c', h2, hl', rfl⟩
    · rw [show (let s2 := insertSorted c s
          if i < s2.length then insertSetOfSets s2 tmp2 else tmp2) = tmp2 by simp [hlen]]
      constructor
      · rintro (h | ⟨c', hc', hl', rfl⟩)
        · exact Or.inl h
        · exact Or.inr ⟨c', List.mem_cons_of_mem _ hc', hl', rfl⟩
      · rintro (h | ⟨c', hc', hl', rfl⟩)
        · exact Or.inl h
        · rcases List.mem_cons.mp hc' with rfl | h2
          · exact absurd hl' hlen
          · exact Or.inr ⟨c', h2, hl', rfl⟩

theorem stepInner_sorted (i : Nat) (s : List Int) :
    ∀ (cs : List Int) (tmp2 : List (List Int)), tmp2.Pairwise (· < ·) →
    (cs.foldl (fun tmp2 c =>
      let s2 := insertSorted c s
      if i < s2.length then insertSetOfSets s2 tmp2 else tmp2) tmp2).Pairwise (· < ·) := by
  intro cs
  induction cs with
  | nil => intro tmp2 h; exact h
  | cons c rest ih =>
    intro tmp2 h
    rw [List.foldl_cons]
    refine ih _ ?_
    by_cases hlen : i < (insertSorted c s).length
    · rw [show (let s2 := insertSorted c s
          if i < s2.length then insertSetOfSets s2 tmp2 else tmp2) =
          insertSetOfSets (insertSorted c s) tmp2 by simp [hlen]]
      exact insertSetOfSets_sorted h
    · rw [show (let s2 := insertSorted c s
          if i < s2.length then insertSetOfSets s2 tmp2 else tmp2) = tmp2 by simp [hlen]]
      exact h

theorem atleastStepFold_mem (children : List Int) (i : Nat) :
    ∀ (allSets tmp : List (List Int)) (x : List Int),
    x ∈ allSets.foldl (fun tmp s => children.foldl (fun tmp2 c =>
      let s2 := insertSorted c s
      if i < s2.length then insertSetOfSets s2 tmp2 else tmp2) tmp) tmp ↔
    x ∈ tmp ∨ ∃ s ∈ allSets, ∃ c ∈ children, i < (insertSorted c s).length ∧
      x = insertSorted c s := by
  intro allSets
  induction allSets with
  | nil => intro tmp x; simp
  | cons s rest ih =>
    intro tmp x
    rw [List.foldl_cons, ih, stepInner_mem]
    constructor
    · rintro ((h | ⟨c, hc, hl, rfl⟩) | ⟨s', hs', c, hc, hl, rfl⟩)
      · exact Or.inl h
      · exact Or.inr ⟨s, List.mem_cons_self .., c, hc, hl, rfl⟩
      · exact Or.inr ⟨s', List.mem_cons_of_mem _ hs', c, hc, hl, rfl⟩
    · rintro (h | ⟨s', hs', c, hc, hl, rfl⟩)
      · exact Or.inl (Or.inl h)
      · rcases List.mem_cons.mp hs' with rfl | h2
        · exact Or.inl (Or.inr ⟨c, hc, hl, rfl⟩)
        · exact Or.inr ⟨s', h2, c, hc, hl, rfl⟩

theorem atleastStepFold_sorted (children : List Int) (i : Nat) :
    ∀ (allSets tmp : List (List Int)), tmp.Pairwise (· < ·) →
    (allSets.foldl (fun tmp s => children.foldl (fun tmp2 c =>
      let s2 := insertSorted c s
      if i < s2.length then insertSetOfSets s2 tmp2 else tmp2) tmp) tmp).Pairwise (· < ·) := by
  intro allSets
  induction allSets with
  | nil => intro tmp h; exact h
  | cons s rest ih =>
    intro tmp h
    rw [List.foldl_cons]
    exact ih _ (stepInner_sorted i s children tmp h)

theorem atleastStep_char (children : List Int) (i : Nat)
    (allSets : List (List Int))
    (hprev : ∀ s, s ∈ allSets ↔ s.Pairwise (· < ·) ∧ s.length = i ∧ s ⊆ children) :
    ∀ x, x ∈ atleastStep children i allSets ↔
      x.Pairwise (· < ·) ∧ x.length = i + 1 ∧ x ⊆ children := by
  intro x
  unfold atleastStep
  rw [atleastStepFold_mem]
  simp only [List.not_mem_nil, false_or]
  constructor
  · rintro ⟨s, hsmem, c, hc, hl, rfl⟩
    obtain ⟨hsort, hlen, hsub⟩ := (hprev s).mp hsmem
    have hcnot : c ∉ s := by
      intro hcs
      rw [insertSorted_of_mem hsort hcs, hlen] at hl
      omega
    refine ⟨insertSorted_sorted hsort, ?_, ?_⟩
    · rw [length_insertSorted_of_not_mem hcnot, hlen]
    · intro z hz
      rcases mem_insertSorted.mp hz with rfl | hz2
      · exact hc
      · exact hsub hz2
  · rintro ⟨hsort, hlen, hsub⟩
    cases x with
    | nil => simp at hlen
    | cons c s' =>
      have htail : s'.Pairwise (· < ·) := List.Pairwise.of_cons hsort
      have heq : insertSorted c s' = c :: s' := by
        have h0 := insertSorted_erase_of_mem hsort (List.mem_cons_self c s')
        rw [List.erase_cons_head] at h0
        exact h0
      simp only [List.length_cons] at hlen
      refine ⟨s', (hprev s').mpr ⟨htail, by omega,
        fun z hz => hsub (List.mem_cons_of_mem _ hz)⟩,
        c, hsub (List.mem_cons_self ..), ?_, heq.symm⟩
      rw [heq]
      simp only [List.length_cons]
      omega

theorem atleastSets_char (children : List Int) :
    ∀ (k : Nat), 1 ≤ k →
    (∀ x, x ∈ atleastSets children k ↔
      x.Pairwise (· < ·) ∧ x.length = k ∧ x ⊆ children) ∧
    (atleastSets children k).Pairwise (· < ·) := by
  intro k
  induction k with
  | zero => intro h; exact absurd h (by omega)
  | succ n ihk =>
    intro _
    by_cases hn : 1 ≤ n
    · obtain ⟨ihmem, ihsorted⟩ := ihk hn
      have hsplit : atleastSets children (n + 1) =
          atleastStep children n (atleastSets children n) := by
        unfold atleastSets
        have h1 : n + 1 - 1 = (n - 1) + 1 := by omega
        rw [h1, List.range_succ, List.foldl_append]
        simp only [List.foldl_cons, List.foldl_nil]
        rw [show n - 1 + 1 = n from by omega]
      constructor
      · intro x
        rw [hsplit]
        exact atleastStep_char children n _ ihmem x
      · rw [hsplit]
        unfold atleastStep
        exact atleastStepFold_sorted children n _ [] (by simp)
    · have hn0 : n = 0 := by omega
      subst hn0
      constructor
      · intro x
        show x ∈ atleastSets children 1 ↔ _
        unfold atleastSets
        simp only [Nat.sub_self, List.range_zero, List.foldl_nil]
        rw [baseFold_mem]
        simp only [List.not_mem_nil, false_or]
        constructor
        · rintro ⟨c, hc, rfl⟩
          exact ⟨by simp, rfl, by simpa using hc⟩
        · rintro ⟨hsort, hlen, hsub⟩
          rcases List.length_eq_one.mp hlen with ⟨c, rfl⟩
          exact ⟨c, by simpa using hsub, rfl⟩
      · show (atleastSets children 1).Pairwise (· < ·)
        unfold atleastSets
        simp only [Nat.sub_self, List.range_zero, List.foldl_nil]
        exact baseFold_sorted children [] (by simp)

theorem sublist_of_subset_sorted : ∀ {t s : List Int}, t.Pairwise (· < ·) →
    s.Pairwise (· < ·) → s ⊆ t → s.Sublist t := by
  intro t
  induction t with
  | nil =>
    intro s _ _ hsub
    rw [List.subset_nil.mp hsub]
  | cons y ys ih =>
    intro s hst hss hsub
    cases s with
    | nil => exact List.nil_sublist _
    | cons x xs =>
      by_cases hxy : x = y
      · subst hxy
        refine List.Sublist.cons₂ x
          (ih (List.Pairwise.of_cons hst) (List.Pairwise.of_cons hss) ?_)
        intro z hz
        have hzin := hsub (List.mem_cons_of_mem _ hz)
        rcases List.mem_cons.mp hzin with rfl | h2
        · exact absurd (List.rel_of_pairwise_cons hss hz) (lt_irrefl z)
        · exact h2
      · have hxys : x ∈ ys := by
          rcases List.mem_cons.mp (hsub (List.mem_cons_self ..)) with h | h
          · exact absurd h hxy
          · exact h
        have hyx : y < x := List.rel_of_pairwise_cons hst hxys
        refine List.Sublist.cons y (ih (List.Pairwise.of_cons hst) hss ?_)
        intro z hz
        have hzin := hsub hz
        rcases List.mem_cons.mp hzin with rfl | h2
        · rcases List.mem_cons.mp hz with h3 | h3
          · exact absurd h3.symm hxy
          · exact absurd (lt_trans hyx (List.rel_of_pairwise_cons hss h3)) (lt_irrefl z)
        · exact h2

theorem atleastSets_count (children : List Int) (hs : children.Pairwise (· < ·)) (k : Nat)
    (hk : 1 ≤ k) :
    (atleastSets children k).length = children.length.choose k ∧
    (atleastSets children k).Nodup ∧
    (∀ s, s ∈ atleastSets children k ↔
      s.Pairwise (· < ·) ∧ s.length = k ∧ s ⊆ children) := by
  obtain ⟨hmem, hsorted⟩ := atleastSets_char children k hk
  have hnd : (atleastSets children k).Nodup := sortedLex_nodup hsorted
  refine ⟨?_, hnd, hmem⟩
  have hperm : (atleastSets children k).Perm (List.sublistsLen k children) := by
    rw [List.perm_ext_iff_of_nodup hnd (List.nodup_sublistsLen k (sorted_nodup hs))]
    intro s
    rw [hmem s, List.mem_sublistsLen]
    constructor
    · rintro ⟨h1, h2, h3⟩
      exact ⟨sublist_of_subset_sorted hs h1 h3, h2⟩
    · rintro ⟨h1, h2⟩
      exact ⟨hs.sublist h1, h2, h1.subset⟩
  rw [hperm.length_eq, List.length_sublistsLen]

theorem atleast_assemble (t : IFT) (idx : Nat) (g : IndexedGate) (ss : List (List Int))
    (hkb : t.keysBounded) (hfind : t.find? idx = some g) (hgidx : g.index = idx)
    (hss : ∀ s ∈ ss, s.Pairwise (· < ·) ∧ ∀ x ∈ s, -x ∉ s) :
    (∃ g0, ((ss.foldl (fun (acc : IFT × IndexedGate) s =>
      let f := acc.1.newGateIndex + 1
      let ng := ((⟨f, GateType.andG, 0, [], GState.normal, [], ((0 : Nat), (0 : Nat),
        (0 : Nat))⟩ : IndexedGate).addChildren s).1
      (({ acc.1 with newGateIndex := f }).setGate ng, (acc.2.addChild (Int.ofNat f)).1))
      (t, { g with gtype := GateType.orG, children := ([] : List Int) })).1.setGate
      (ss.foldl (fun (acc : IFT × IndexedGate) s =>
      let f := acc.1.newGateIndex + 1
      let ng := ((⟨f, GateType.andG, 0, [], GState.normal, [], ((0 : Nat), (0 : Nat),
        (0 : Nat))⟩ : IndexedGate).addChildren s).1
      (({ acc.1 with newGateIndex := f }).setGate ng, (acc.2.addChild (Int.ofNat f)).1))
      (t, { g with gtype := GateType.orG, children := ([] : List Int) })).2).find? idx =
        some g0 ∧ g0.gtype = GateType.orG ∧
      g0.children = (List.range ss.length).map (fun i => Int.ofNat (t.newGateIndex + 1 + i))) ∧
    (∀ i (h : i < ss.length), t.find? (t.newGateIndex + 1 + i) = none ∧
      ∃ gi, ((ss.foldl (fun (acc : IFT × IndexedGate) s =>
      let f := acc.1.newGateIndex + 1
      let ng := ((⟨f, GateType.andG, 0, [], GState.normal, [], ((0 : Nat), (0 : Nat),
        (0 : Nat))⟩ : IndexedGate).addChildren s).1
      (({ acc.1 with newGateIndex := f }).setGate ng, (acc.2.addChild (Int.ofNat f)).1))
      (t, { g with gtype := GateType.orG, children := ([] : List Int) })).1.setGate
      (ss.foldl (fun (acc : IFT × IndexedGate) s =>
      let f := acc.1.newGateIndex + 1
      let ng := ((⟨f, GateType.andG, 0, [], GState.normal, [], ((0 : Nat), (0 : Nat),
        (0 : Nat))⟩ : IndexedGate).addChildren s).1
      (({ acc.1 with newGateIndex := f }).setGate ng, (acc.2.addChild (Int.ofNat f)).1))
      (t, { g with gtype := GateType.orG, children := ([] : List Int) })).2).find?
        (t.newGateIndex + 1 + i) = some gi ∧
        gi.gtype = GateType.andG ∧ gi.children = ss.get ⟨i, h⟩) := by
  obtain ⟨b1, b2, b3, b4⟩ := atleastFold_build ss t
    { g with gtype := GateType.orG, children := ([] : List Int) } hss (by simp) (by simp)
  have hidxF : (ss.foldl (fun (acc : IFT × IndexedGate) s =>
      let f := acc.1.newGateIndex + 1
      let ng := ((⟨f, GateType.andG, 0, [], GState.normal, [], ((0 : Nat), (0 : Nat),
        (0 : Nat))⟩ : IndexedGate).addChildren s).1
      (({ acc.1 with newGateIndex := f }).setGate ng, (acc.2.addChild (Int.ofNat f)).1))
      (t, { g with gtype := GateType.orG, children := ([] : List Int) })).2.index = idx := by
    rw [atleastFold_index2]
    exact hgidx
  have hidxb : idx ≤ t.newGateIndex := by
    obtain ⟨q, hq, hq1, _⟩ := find?_mem hfind
    exact hq1 ▸ hkb q hq
  constructor
  · refine ⟨(ss.foldl (fun (acc : IFT × IndexedGate) s =>
      let f := acc.1.newGateIndex + 1
      let ng := ((⟨f, GateType.andG, 0, [], GState.normal, [], ((0 : Nat), (0 : Nat),
        (0 : Nat))⟩ : IndexedGate).addChildren s).1
      (({ acc.1 with newGateIndex := f }).setGate ng, (acc.2.addChild (Int.ofNat f)).1))
      (t, { g with gtype := GateType.orG, children := ([] : List Int) })).2, ?_, ?_, ?_⟩
    · have h0 := find?_setGate_self (ss.foldl (fun (acc : IFT × IndexedGate) s =>
        let f := acc.1.newGateIndex + 1
        let ng := ((⟨f, GateType.andG, 0, [], GState.normal, [], ((0 : Nat), (0 : Nat),
          (0 : Nat))⟩ : IndexedGate).addChildren s).1
        (({ acc.1 with newGateIndex := f }).setGate ng, (acc.2.addChild (Int.ofNat f)).1))
        (t, { g with gtype := GateType.orG, children := ([] : List Int) })).1
        (ss.foldl (fun (acc : IFT × IndexedGate) s =>
        let f := acc.1.newGateIndex + 1
        let ng := ((⟨f, GateType.andG, 0, [], GState.normal, [], ((0 : Nat), (0 : Nat),
          (0 : Nat))⟩ : IndexedGate).addChildren s).1
        (({ acc.1 with newGateIndex := f }).setGate ng, (acc.2.addChild (Int.ofNat f)).1))
        (t, { g with gtype := GateType.orG, children := ([] : List Int) })).2
      rw [hidxF] at h0
      exact h0
    · rw [atleastFold_gtype2]
    · rw [b4]
      rfl
  · intro i hi
    refine ⟨find?_none_of_gt_bound hkb (by omega), ?_⟩
    refine ⟨⟨t.newGateIndex + 1 + i, GateType.andG, 0, ss.get ⟨i, hi⟩, GState.normal, [],
      ((0 : Nat), (0 : Nat), (0 : Nat))⟩, ?_, rfl, rfl⟩
    rw [find?_setGate_ne _ _ _ (by rw [hidxF]; omega)]
    exact b3 i hi

/-- C5.  Normalizing an ATLEAST gate with vote number `k` over `n`
distinct children (ascending, no complement pair), `2 ≤ k ≤ n - 1`,
turns the gate into an OR gate whose children are exactly `C(n, k)`
freshly allocated indices (each previously absent from the map), the
`i`-th holding an AND gate whose child set is the `i`-th enumerated
combination; the enumerated combinations are pairwise distinct and
range exactly over the `k`-element subsets (the ascending sublists of
length `k`) of the original child set. -/
theorem c5_atleast_expansion :
    ∀ (t : IFT) (idx : Nat) (g : IndexedGate),
    t.keysBounded → t.find? idx = some g → g.index = idx →
    g.children.Pairwise (· < ·) → (∀ x ∈ g.children, -x ∉ g.children) →
    2 ≤ g.voteNumber → g.voteNumber + 1 ≤ g.children.length →
    ∃ ss : List (List Int),
      ss.length = (g.children.length).choose g.voteNumber ∧ ss.Nodup ∧
      (∀ s, s ∈ ss ↔ s.Pairwise (· < ·) ∧ s.length = g.voteNumber ∧ s ⊆ g.children) ∧
      (∃ g0, (t.normalizeAtleastGate idx).find? idx = some g0 ∧
        g0.gtype = GateType.orG ∧
        g0.children = (List.range ss.length).map
          (fun i => Int.ofNat (t.newGateIndex + 1 + i))) ∧
      (∀ i (h : i < ss.length), t.find? (t.newGateIndex + 1 + i) = none ∧
        ∃ gi, (t.normalizeAtleastGate idx).find? (t.newGateIndex + 1 + i) = some gi ∧
          gi.gtype = GateType.andG ∧ gi.children = ss.get ⟨i, h⟩) := by
  intro t idx g hkb hfind hgidx hsorted hnc hvote hlen
  obtain ⟨hcount, hnd, hmem⟩ := atleastSets_count g.children hsorted g.voteNumber (by omega)
  refine ⟨atleastSets g.children g.voteNumber, hcount, hnd, hmem, ?_⟩
  have hss : ∀ s ∈ atleastSets g.children g.voteNumber,
      s.Pairwise (· < ·) ∧ ∀ x ∈ s, -x ∉ s := by
    intro s hs
    obtain ⟨h1, h2, h3⟩ := (hmem s).mp hs
    refine ⟨h1, ?_⟩
    intro x hx hnx
    exact hnc x (h3 hx) (h3 hnx)
  simp only [IFT.normalizeAtleastGate, hfind]
  exact atleast_assemble t idx g (atleastSets g.children g.voteNumber) hkb hfind hgidx hss

theorem c5_atleast_expansion_witness :
    (treeE.keysBounded ∧
      treeE.find? 4 =
        some ⟨4, GateType.atleastG, 2, [1, 2, 3], GState.normal, [], (0, 0, 0)⟩ ∧
      ([1, 2, 3] : List Int).Pairwise (· < ·) ∧
      (∀ x ∈ ([1, 2, 3] : List Int), -x ∉ ([1, 2, 3] : List Int)) ∧
      (2 : Nat) ≤ 2 ∧ (3 : Nat) ≤ 3) ∧
    (∃ ss : List (List Int),
      ss.length = (3 : Nat).choose 2 ∧ ss.Nodup ∧
      (∀ s, s ∈ ss ↔ s.Pairwise (· < ·) ∧ s.length = 2 ∧ s ⊆ ([1, 2, 3] : List Int)) ∧
      (∃ g0, (treeE.normalizeAtleastGate 4).find? 4 = some g0 ∧
        g0.gtype = GateType.orG ∧
        g0.children = (List.range ss.length).map (fun i => Int.ofNat (5 + i))) ∧
      (∀ i (h : i < ss.length), treeE.find? (5 + i) = none ∧
        ∃ gi, (treeE.normalizeAtleastGate 4).find? (5 + i) = some gi ∧
          gi.gtype = GateType.andG ∧ gi.children = ss.get ⟨i, h⟩)) := by
  have hkb : treeE.keysBounded := by
    show ∀ p ∈ treeE.gates, p.1 ≤ treeE.newGateIndex
    decide
  refine ⟨⟨hkb, rfl, by decide, by decide, by decide, by decide⟩, ?_⟩
  exact c5_atleast_expansion treeE 4
    ⟨4, GateType.atleastG, 2, [1, 2, 3], GState.normal, [], (0, 0, 0)⟩ hkb rfl rfl
    (by decide) (by decide) (by decide) (by decide)

end Scram
